import Mathlib

/-!
Verification development for the NYC taxi data-processing pipeline
(`data_processing/custom_algorithms.py`, `data_processing/data_cleaner.py`,
`data_processing/feature_engineering.py`).

Modelling conventions:
* Python floats are modelled as rationals (`ℚ`); the float trigonometry of the
  haversine distance is modelled over the reals (`ℝ`) in a separate section.
* A Python `dict` record is modelled as a structure whose optional fields are
  `Option String` (`none` = key absent).  Derived numeric features written by
  the feature-engineering stages are stored as exact rationals; the source
  formats them into decimal strings, which is presentation only.
* `random.sample` is modelled as an explicit sampling-function parameter.
* Tuple indexing `item[key_index]` is modelled as a key function `k : α → ℚ`.
-/

namespace NycTaxi

open scoped List

/-! ### `CustomAlgorithms.quick_sort`

Source (`custom_algorithms.py`, lines 19-53): pivot is the middle element,
one pass buckets every item into `left` / `middle` / `right` by comparing its
key with the pivot key (`<`/`>` swapped when `reverse`), then
`quick_sort(left) + middle + quick_sort(right)`; lists of length ≤ 1 are
returned unchanged. -/

/-- The `left`-bucket test of `quick_sort`:
`(not reverse and item_value < pivot_value) or (reverse and item_value > pivot_value)`. -/
def qsLess {α : Type} (k : α → ℚ) (rev : Bool) (pv : ℚ) (x : α) : Bool :=
  if rev then decide (pv < k x) else decide (k x < pv)

/-- The `middle`-bucket test of `quick_sort`: `item_value == pivot_value`. -/
def qsEq {α : Type} (k : α → ℚ) (pv : ℚ) (x : α) : Bool :=
  decide (k x = pv)

/-- The `right`-bucket test of `quick_sort` (the `else` branch). -/
def qsGt {α : Type} (k : α → ℚ) (rev : Bool) (pv : ℚ) (x : α) : Bool :=
  !qsLess k rev pv x && !qsEq k pv x

lemma length_filter_lt_of_mem {α : Type} {p : α → Bool} {l : List α} {x : α}
    (hx : x ∈ l) (hpx : ¬ p x) : (l.filter p).length < l.length := by
  rw [List.length_filter_lt_length_iff_exists]
  exact ⟨x, hx, hpx⟩

/-- Source `CustomAlgorithms.quick_sort`.  `arr` is the list, `k` extracts the tuple
component selected by `key_index`, `rev` is the `reverse` flag. -/
def quick_sort {α : Type} (k : α → ℚ) (rev : Bool) (arr : List α) : List α :=
  if h : arr.length ≤ 1 then arr
  else
    let pv := k (arr.get ⟨arr.length / 2, Nat.div_lt_self (by omega) (by omega)⟩)
    quick_sort k rev (arr.filter (qsLess k rev pv)) ++ arr.filter (qsEq k pv) ++
      quick_sort k rev (arr.filter (qsGt k rev pv))
termination_by arr.length
decreasing_by
  · refine length_filter_lt_of_mem
      (x := arr.get ⟨arr.length / 2, Nat.div_lt_self (by omega) (by omega)⟩)
      (arr.get_mem _ _) ?_
    simp only [qsLess]; split <;> simp
  · refine length_filter_lt_of_mem
      (x := arr.get ⟨arr.length / 2, Nat.div_lt_self (by omega) (by omega)⟩)
      (arr.get_mem _ _) ?_
    simp [qsGt, qsEq]

/-- The order relation that `quick_sort` sorts by: ascending key, or descending
key when `reverse` is set. -/
def keyRel {α : Type} (k : α → ℚ) (rev : Bool) (a b : α) : Prop :=
  if rev then k b ≤ k a else k a ≤ k b

/-- The single bucketing pass of `quick_sort` partitions the input list. -/
lemma qs_partition {α : Type} (k : α → ℚ) (rev : Bool) (pv : ℚ) (arr : List α) :
    List.Perm (arr.filter (qsLess k rev pv) ++ arr.filter (qsEq k pv) ++
      arr.filter (qsGt k rev pv)) arr := by
  induction arr with
  | nil => simp
  | cons a t iht =>
    by_cases hL : qsLess k rev pv a
    · have hE : qsEq k pv a = false := by
        simp only [qsLess] at hL
        simp only [qsEq, decide_eq_false_iff_not]
        intro heq
        rw [heq] at hL
        split at hL <;> simp at hL
      have hG : qsGt k rev pv a = false := by simp [qsGt, hL]
      simp only [List.filter_cons, hL, hE, hG, if_true, if_false, cond_true, cond_false]
      exact (List.Perm.cons a iht)
    · by_cases hE : qsEq k pv a
      · have hG : qsGt k rev pv a = false := by simp [qsGt, hE]
        simp only [List.filter_cons, hL, hE, hG, if_true, if_false, cond_true, cond_false]
        calc t.filter (qsLess k rev pv) ++ a :: t.filter (qsEq k pv) ++
              t.filter (qsGt k rev pv)
            = t.filter (qsLess k rev pv) ++ a :: (t.filter (qsEq k pv) ++
              t.filter (qsGt k rev pv)) := by simp
          _ ~ a :: (t.filter (qsLess k rev pv) ++ (t.filter (qsEq k pv) ++
              t.filter (qsGt k rev pv))) := List.perm_middle
          _ ~ a :: t := by
              refine List.Perm.cons a ?_
              rw [← List.append_assoc]
              exact iht
      · have hG : qsGt k rev pv a = true := by
          simp only [qsGt, hL, hE]
          simp [Bool.eq_false_iff.mpr hL, Bool.eq_false_iff.mpr hE]
        simp only [List.filter_cons, hL, hE, hG, if_true, if_false, cond_true, cond_false]
        calc t.filter (qsLess k rev pv) ++ t.filter (qsEq k pv) ++
              (a :: t.filter (qsGt k rev pv))
            = (t.filter (qsLess k rev pv) ++ t.filter (qsEq k pv)) ++
              a :: t.filter (qsGt k rev pv) := by simp
          _ ~ a :: ((t.filter (qsLess k rev pv) ++ t.filter (qsEq k pv)) ++
              t.filter (qsGt k rev pv)) := List.perm_middle
          _ ~ a :: t := List.Perm.cons a iht

lemma quick_sort_perm {α : Type} (k : α → ℚ) (rev : Bool) :
    ∀ n (arr : List α), arr.length ≤ n → List.Perm (quick_sort k rev arr) arr := by
  intro n
  induction n with
  | zero =>
    intro arr h
    rw [quick_sort]
    simp only [Nat.le_zero] at h
    simp [h]
  | succ m ih =>
    intro arr h
    rw [quick_sort]
    split
    · exact List.Perm.refl arr
    · rename_i hlen
      set pv := k (arr.get ⟨arr.length / 2, Nat.div_lt_self (by omega) (by omega)⟩) with hpv
      have hL : (arr.filter (qsLess k rev pv)).length ≤ m := by
        have := length_filter_lt_of_mem (l := arr) (p := qsLess k rev pv)
          (x := arr.get ⟨arr.length / 2, Nat.div_lt_self (by omega) (by omega)⟩)
          (arr.get_mem _ _) (by simp only [qsLess, hpv]; split <;> simp)
        omega
      have hR : (arr.filter (qsGt k rev pv)).length ≤ m := by
        have := length_filter_lt_of_mem (l := arr) (p := qsGt k rev pv)
          (x := arr.get ⟨arr.length / 2, Nat.div_lt_self (by omega) (by omega)⟩)
          (arr.get_mem _ _) (by simp [qsGt, qsEq, hpv])
        omega
      have p1 := ih _ hL
      have p2 := ih _ hR
      exact ((p1.append (List.Perm.refl _)).append p2).trans (qs_partition k rev pv arr)

/-- Source `quick_sort` returns a permutation of its input. -/
lemma quick_sort_is_perm {α : Type} (k : α → ℚ) (rev : Bool) (arr : List α) :
    List.Perm (quick_sort k rev arr) arr :=
  quick_sort_perm k rev arr.length arr le_rfl

lemma mem_quick_sort {α : Type} {k : α → ℚ} {rev : Bool} {arr : List α} {x : α} :
    x ∈ quick_sort k rev arr ↔ x ∈ arr :=
  (quick_sort_is_perm k rev arr).mem_iff

lemma sorted_of_all_key_eq {α : Type} {k : α → ℚ} {rev : Bool} {pv : ℚ} {l : List α}
    (h : ∀ x ∈ l, k x = pv) : l.Sorted (keyRel k rev) := by
  induction l with
  | nil => exact List.sorted_nil
  | cons a t iht =>
    rw [List.sorted_cons]
    refine ⟨fun b hb => ?_, iht (fun x hx => h x (List.mem_cons_of_mem a hx))⟩
    have ha := h a (List.mem_cons_self a t)
    have hb := h b (List.mem_cons_of_mem a hb)
    simp [keyRel, ha, hb]

lemma quick_sort_sorted_aux {α : Type} (k : α → ℚ) (rev : Bool) :
    ∀ n (arr : List α), arr.length ≤ n → (quick_sort k rev arr).Sorted (keyRel k rev) := by
  intro n
  induction n with
  | zero =>
    intro arr h
    have ha : arr = [] := List.length_eq_zero.mp (Nat.le_zero.mp h)
    subst ha
    rw [quick_sort]
    simp
  | succ m ih =>
    intro arr h
    rw [quick_sort]
    split
    · rename_i hle
      match arr, hle with
      | [], _ => exact List.sorted_nil
      | [a], _ => exact List.sorted_singleton a
    · rename_i hlen
      set pv := k (arr.get ⟨arr.length / 2, Nat.div_lt_self (by omega) (by omega)⟩) with hpv
      have hL : (arr.filter (qsLess k rev pv)).length ≤ m := by
        have := length_filter_lt_of_mem (l := arr) (p := qsLess k rev pv)
          (x := arr.get ⟨arr.length / 2, Nat.div_lt_self (by omega) (by omega)⟩)
          (arr.get_mem _ _) (by simp only [qsLess, hpv]; split <;> simp)
        omega
      have hR : (arr.filter (qsGt k rev pv)).length ≤ m := by
        have := length_filter_lt_of_mem (l := arr) (p := qsGt k rev pv)
          (x := arr.get ⟨arr.length / 2, Nat.div_lt_self (by omega) (by omega)⟩)
          (arr.get_mem _ _) (by simp [qsGt, qsEq, hpv])
        omega
      -- key comparisons for members of each bucket
      have memL : ∀ x ∈ quick_sort k rev (arr.filter (qsLess k rev pv)),
          qsLess k rev pv x = true := by
        intro x hx
        have := (List.mem_filter.mp (mem_quick_sort.mp hx)).2
        exact this
      have memE : ∀ x ∈ arr.filter (qsEq k pv), k x = pv := by
        intro x hx
        have := (List.mem_filter.mp hx).2
        simpa [qsEq] using this
      have memR : ∀ x ∈ quick_sort k rev (arr.filter (qsGt k rev pv)),
          qsGt k rev pv x = true := by
        intro x hx
        exact (List.mem_filter.mp (mem_quick_sort.mp hx)).2
      have relLE : ∀ x, qsLess k rev pv x = true → ∀ y, k y = pv → keyRel k rev x y := by
        intro x hx y hy
        simp only [qsLess] at hx
        simp only [keyRel, hy]
        rcases rev with _ | _
        · simp only [Bool.false_eq_true, if_false, decide_eq_true_eq] at hx
          simp only [Bool.false_eq_true, if_false]
          exact le_of_lt hx
        · simp only [if_true, decide_eq_true_eq] at hx
          simp only [if_true]
          exact le_of_lt hx
      have relEG : ∀ x, k x = pv → ∀ y, qsGt k rev pv y = true → keyRel k rev x y := by
        intro x hx y hy
        simp only [qsGt, qsEq, qsLess, Bool.and_eq_true, Bool.not_eq_true',
          decide_eq_false_iff_not] at hy
        simp only [keyRel, hx]
        rcases hy with ⟨hy1, hy2⟩
        rcases rev with _ | _
        · simp only [Bool.false_eq_true, if_false, decide_eq_false_iff_not] at hy1
          simp only [Bool.false_eq_true, if_false]
          exact le_of_not_lt hy1
        · simp only [if_true, decide_eq_false_iff_not] at hy1
          simp only [if_true]
          exact le_of_not_lt hy1
      have relLG : ∀ x, qsLess k rev pv x = true → ∀ y, qsGt k rev pv y = true →
          keyRel k rev x y := by
        intro x hx y hy
        simp only [qsGt, qsEq, qsLess, Bool.and_eq_true, Bool.not_eq_true',
          decide_eq_false_iff_not] at hy
        simp only [qsLess] at hx
        rcases hy with ⟨hy1, hy2⟩
        simp only [keyRel]
        rcases rev with _ | _
        · simp only [Bool.false_eq_true, if_false, decide_eq_true_eq,
            decide_eq_false_iff_not] at hx hy1 ⊢
          exact le_of_lt (lt_of_lt_of_le hx (le_of_not_lt hy1))
        · simp only [if_true, decide_eq_true_eq, decide_eq_false_iff_not] at hx hy1 ⊢
          exact le_of_lt (lt_of_le_of_lt (le_of_not_lt hy1) hx)
      rw [List.append_assoc]
      rw [show (List.Sorted (keyRel k rev) (quick_sort k rev (arr.filter (qsLess k rev pv)) ++
        (arr.filter (qsEq k pv) ++ quick_sort k rev (arr.filter (qsGt k rev pv))))) =
        List.Pairwise (keyRel k rev) (quick_sort k rev (arr.filter (qsLess k rev pv)) ++
        (arr.filter (qsEq k pv) ++ quick_sort k rev (arr.filter (qsGt k rev pv)))) from rfl]
      rw [List.pairwise_append]
      refine ⟨ih _ hL, ?_, ?_⟩
      · rw [List.pairwise_append]
        refine ⟨sorted_of_all_key_eq memE, ih _ hR, ?_⟩
        intro x hx y hy
        exact relEG x (memE x hx) y (memR y hy)
      · intro x hx y hy
        rcases List.mem_append.mp hy with hy1 | hy2
        · exact relLE x (memL x hx) y (memE y hy1)
        · exact relLG x (memL x hx) y (memR y hy2)

/-- Source `quick_sort` output is sorted by the key, ascending, or descending when
`reverse` is set. -/
lemma quick_sort_sorted {α : Type} (k : α → ℚ) (rev : Bool) (arr : List α) :
    (quick_sort k rev arr).Sorted (keyRel k rev) :=
  quick_sort_sorted_aux k rev arr.length arr le_rfl

lemma filter_filter_of_imp {α : Type} {p q : α → Bool} (l : List α)
    (h : ∀ x, q x = true → p x = true) : (l.filter p).filter q = l.filter q := by
  rw [List.filter_filter]
  apply List.filter_congr
  intro x _
  rcases hq : q x with _ | _
  · simp
  · simp [h x hq]

lemma filter_filter_of_disjoint {α : Type} {p q : α → Bool} (l : List α)
    (h : ∀ x, q x = true → p x = false) : (l.filter p).filter q = [] := by
  rw [List.filter_filter]
  apply List.filter_eq_nil_iff.mpr
  intro x _
  rcases hq : q x with _ | _
  · simp
  · simp [h x hq]

lemma quick_sort_stable_aux {α : Type} (k : α → ℚ) (rev : Bool) :
    ∀ n (arr : List α), arr.length ≤ n → ∀ c : ℚ,
      (quick_sort k rev arr).filter (qsEq k c) = arr.filter (qsEq k c) := by
  intro n
  induction n with
  | zero =>
    intro arr h c
    have ha : arr = [] := List.length_eq_zero.mp (Nat.le_zero.mp h)
    subst ha
    rw [quick_sort]
    simp
  | succ m ih =>
    intro arr h c
    rw [quick_sort]
    split
    · rfl
    · rename_i hlen
      set pv := k (arr.get ⟨arr.length / 2, Nat.div_lt_self (by omega) (by omega)⟩) with hpv
      have hL : (arr.filter (qsLess k rev pv)).length ≤ m := by
        have := length_filter_lt_of_mem (l := arr) (p := qsLess k rev pv)
          (x := arr.get ⟨arr.length / 2, Nat.div_lt_self (by omega) (by omega)⟩)
          (arr.get_mem _ _) (by simp only [qsLess, hpv]; split <;> simp)
        omega
      have hR : (arr.filter (qsGt k rev pv)).length ≤ m := by
        have := length_filter_lt_of_mem (l := arr) (p := qsGt k rev pv)
          (x := arr.get ⟨arr.length / 2, Nat.div_lt_self (by omega) (by omega)⟩)
          (arr.get_mem _ _) (by simp [qsGt, qsEq, hpv])
        omega
      rw [List.filter_append, List.filter_append, ih _ hL c, ih _ hR c]
      -- the bucket of the key value `c` is exactly one of the three buckets
      by_cases hcpv : c = pv
      · have e1 : (arr.filter (qsLess k rev pv)).filter (qsEq k c) = [] := by
          apply filter_filter_of_disjoint
          intro x hx
          simp only [qsEq, decide_eq_true_eq] at hx
          simp only [qsLess, hx, hcpv]
          split <;> simp
        have e3 : (arr.filter (qsGt k rev pv)).filter (qsEq k c) = [] := by
          apply filter_filter_of_disjoint
          intro x hx
          simp only [qsEq, decide_eq_true_eq] at hx
          simp [qsGt, qsEq, hx, hcpv]
        have e2 : (arr.filter (qsEq k pv)).filter (qsEq k c) = arr.filter (qsEq k c) := by
          apply filter_filter_of_imp
          intro x hx
          simp only [qsEq, decide_eq_true_eq] at hx
          simp [qsEq, hx, hcpv]
        rw [e1, e2, e3]
        simp
      · by_cases hlt : (if rev then pv < c else c < pv)
        · have e1 : (arr.filter (qsLess k rev pv)).filter (qsEq k c) =
              arr.filter (qsEq k c) := by
            apply filter_filter_of_imp
            intro x hx
            simp only [qsEq, decide_eq_true_eq] at hx
            simp only [qsLess, hx]
            rcases rev with _ | _
            · simp only [Bool.false_eq_true, if_false] at hlt ⊢
              simpa using hlt
            · simp only [if_true] at hlt ⊢
              simpa using hlt
          have e2 : (arr.filter (qsEq k pv)).filter (qsEq k c) = [] := by
            apply filter_filter_of_disjoint
            intro x hx
            simp only [qsEq, decide_eq_true_eq] at hx
            simp [qsEq, hx, hcpv]
          have e3 : (arr.filter (qsGt k rev pv)).filter (qsEq k c) = [] := by
            apply filter_filter_of_disjoint
            intro x hx
            simp only [qsEq, decide_eq_true_eq] at hx
            simp only [qsGt, qsEq, qsLess, hx]
            rcases rev with _ | _
            · simp only [Bool.false_eq_true, if_false] at hlt ⊢
              simp [hlt]
            · simp only [if_true] at hlt ⊢
              simp [hlt]
          rw [e1, e2, e3]
          simp
        · have e1 : (arr.filter (qsLess k rev pv)).filter (qsEq k c) = [] := by
            apply filter_filter_of_disjoint
            intro x hx
            simp only [qsEq, decide_eq_true_eq] at hx
            simp only [qsLess, hx]
            rcases rev with _ | _
            · simp only [Bool.false_eq_true, if_false] at hlt ⊢
              simpa using hlt
            · simp only [if_true] at hlt ⊢
              simpa using hlt
          have e2 : (arr.filter (qsEq k pv)).filter (qsEq k c) = [] := by
            apply filter_filter_of_disjoint
            intro x hx
            simp only [qsEq, decide_eq_true_eq] at hx
            simp [qsEq, hx, hcpv]
          have e3 : (arr.filter (qsGt k rev pv)).filter (qsEq k c) =
              arr.filter (qsEq k c) := by
            apply filter_filter_of_imp
            intro x hx
            simp only [qsEq, decide_eq_true_eq] at hx
            simp only [qsGt, qsEq, qsLess, hx]
            rcases rev with _ | _
            · simp only [Bool.false_eq_true, if_false] at hlt ⊢
              simp [hlt, hcpv]
            · simp only [if_true] at hlt ⊢
              simp [hlt, hcpv]
          rw [e1, e2, e3]
          simp

/-- Stability of `quick_sort`: the sublist of items whose key equals any fixed
value `c` is preserved exactly (same elements, same relative order). -/
lemma quick_sort_stable {α : Type} (k : α → ℚ) (rev : Bool) (arr : List α) (c : ℚ) :
    (quick_sort k rev arr).filter (qsEq k c) = arr.filter (qsEq k c) :=
  quick_sort_stable_aux k rev arr.length arr le_rfl c

lemma keyRel_false {α : Type} {k : α → ℚ} {a b : α} : keyRel k false a b ↔ k a ≤ k b := by
  simp [keyRel]

lemma keyRel_true {α : Type} {k : α → ℚ} {a b : α} : keyRel k true a b ↔ k b ≤ k a := by
  simp [keyRel]

/-- The key projection of an ascending `quick_sort` run is the canonical
ascending sort of the key projection of the input. -/
lemma quick_sort_map_key_false {α : Type} (k : α → ℚ) (arr : List α) :
    (quick_sort k false arr).map k = List.insertionSort (· ≤ ·) (arr.map k) := by
  refine List.eq_of_perm_of_sorted ?_ ?_ (List.sorted_insertionSort _ _)
  · exact ((quick_sort_is_perm k false arr).map k).trans
      ((List.perm_insertionSort _ _).symm)
  · have hs := quick_sort_sorted k false arr
    exact List.Pairwise.map k (fun a b hab => keyRel_false.mp hab) hs

/-- The key projection of a descending `quick_sort` run is the canonical
descending sort of the key projection of the input. -/
lemma quick_sort_map_key_true {α : Type} (k : α → ℚ) (arr : List α) :
    (quick_sort k true arr).map k = List.insertionSort (· ≥ ·) (arr.map k) := by
  refine List.eq_of_perm_of_sorted ?_ ?_ (List.sorted_insertionSort _ _)
  · exact ((quick_sort_is_perm k true arr).map k).trans
      ((List.perm_insertionSort _ _).symm)
  · have hs := quick_sort_sorted k true arr
    exact List.Pairwise.map k (fun a b hab => keyRel_true.mp hab) hs

/-! ### `CustomAlgorithms.calculate_percentiles`

Source (`custom_algorithms.py`, lines 98-133): an empty value list yields the
`0.0` sentinel for every requested percentile; otherwise the values are sorted
ascending with `quick_sort` on `(value, index)` pairs, percentiles outside
`[0, 100]` are skipped, `p = 0` returns the first and `p = 100` the last sorted
value, and otherwise the result linearly interpolates between the
`int(position)` and `min(int(position)+1, n-1)` indexed sorted values at
`position = (p/100)*(n-1)`. -/

/-- The ascending value list that `calculate_percentiles` builds by sorting
`[(v, i) for i, v in enumerate(values)]` by the value component. -/
def sortedValuesOf (values : List ℚ) : List ℚ :=
  (quick_sort (fun t : ℚ × ℕ => t.1) false (values.enum.map (fun p => (p.2, p.1)))).map
    (fun t => t.1)

/-- One entry of the `calculate_percentiles` result dictionary, for a
percentile `p` with `0 ≤ p ≤ 100`, over the already-sorted value list. -/
def percEntry (sv : List ℚ) (p : ℤ) : ℚ :=
  if p = 0 then sv.getD 0 0
  else if p = 100 then sv.getD (sv.length - 1) 0
  else
    let position : ℚ := ((p : ℚ) / 100) * ((sv.length : ℚ) - 1)
    let lower : ℕ := (⌊position⌋).toNat
    let upper : ℕ := min (lower + 1) (sv.length - 1)
    let weight : ℚ := position - (lower : ℚ)
    sv.getD lower 0 * (1 - weight) + sv.getD upper 0 * weight

/-- Source `CustomAlgorithms.calculate_percentiles`, as the list of
`(percentile, value)` pairs of the returned dictionary. -/
def calculate_percentiles (values : List ℚ) (percentiles : List ℤ) : List (ℤ × ℚ) :=
  if values = [] then percentiles.map (fun p => (p, 0))
  else
    (percentiles.filter (fun p => decide (0 ≤ p) && decide (p ≤ 100))).map
      (fun p => (p, percEntry (sortedValuesOf values) p))

/-- Dictionary access `result[p]`, as used by `detect_outliers_iqr`. -/
def percLookup (res : List (ℤ × ℚ)) (p : ℤ) : ℚ :=
  ((res.lookup p).getD 0)

lemma sortedValuesOf_eq (values : List ℚ) :
    sortedValuesOf values = List.insertionSort (· ≤ ·) values := by
  unfold sortedValuesOf
  rw [quick_sort_map_key_false]
  congr 1
  rw [List.map_map]
  exact List.enum_map_snd values

lemma sortedValuesOf_length (values : List ℚ) :
    (sortedValuesOf values).length = values.length := by
  rw [sortedValuesOf_eq, List.length_insertionSort]

lemma sortedValuesOf_perm (values : List ℚ) :
    List.Perm (sortedValuesOf values) values := by
  rw [sortedValuesOf_eq]
  exact List.perm_insertionSort _ _

lemma sortedValuesOf_sorted (values : List ℚ) :
    (sortedValuesOf values).Sorted (· ≤ ·) := by
  rw [sortedValuesOf_eq]
  exact List.sorted_insertionSort _ _

/-- The linear-interpolation rank statistic exactly as the specification words
it: ascending-sorted values, fractional rank `(p/100)*(n-1)`, interpolation
between the floor- and ceiling-indexed elements with the fractional weight. -/
def specInterpolation (values : List ℚ) (p : ℤ) : ℚ :=
  let L := List.insertionSort (· ≤ ·) values
  let pos : ℚ := ((p : ℚ) / 100) * ((values.length : ℚ) - 1)
  let w : ℚ := pos - (⌊pos⌋ : ℚ)
  L.getD (⌊pos⌋).toNat 0 * (1 - w) + L.getD (⌈pos⌉).toNat 0 * w

lemma sorted_head_min {l : List ℚ} (hs : l.Sorted (· ≤ ·)) (hne : l ≠ []) :
    l.getD 0 0 ∈ l ∧ ∀ x ∈ l, l.getD 0 0 ≤ x := by
  match l, hne with
  | a :: t, _ =>
    rw [List.getD_cons_zero]
    refine ⟨List.mem_cons_self a t, fun x hx => ?_⟩
    rcases List.mem_cons.mp hx with h | h
    · exact le_of_eq (congrArg id h).symm
    · exact List.rel_of_sorted_cons hs x h

lemma sorted_last_max {l : List ℚ} (hs : l.Sorted (· ≤ ·)) (hne : l ≠ []) :
    l.getD (l.length - 1) 0 ∈ l ∧ ∀ x ∈ l, x ≤ l.getD (l.length - 1) 0 := by
  induction l with
  | nil => simp at hne
  | cons a t ih =>
    cases t with
    | nil => simp
    | cons b u =>
      obtain ⟨hmem, hmax⟩ := ih hs.of_cons (by simp)
      have hlen : (a :: b :: u).length - 1 = (b :: u).length - 1 + 1 := by
        simp
      rw [hlen, List.getD_cons_succ]
      refine ⟨List.mem_cons_of_mem a hmem, fun x hx => ?_⟩
      rcases List.mem_cons.mp hx with h | h
      · subst h
        exact le_trans (List.rel_of_sorted_cons hs _ hmem) le_rfl
      · exact hmax x h

/-- The interpolation branch of `calculate_percentiles` computes exactly the
floor/ceiling interpolation of the specification. -/
lemma percEntry_eq_specInterpolation (values : List ℚ) (p : ℤ)
    (hne : values ≠ []) (hp0 : 0 < p) (hp1 : p < 100) :
    percEntry (sortedValuesOf values) p = specInterpolation values p := by
  have hn : 1 ≤ values.length := List.length_pos.mpr hne
  set L := List.insertionSort (· ≤ ·) values with hL
  have hlen : (sortedValuesOf values).length = values.length := sortedValuesOf_length values
  have hLlen : L.length = values.length := List.length_insertionSort _ _
  rw [percEntry, if_neg (by omega), if_neg (by omega), specInterpolation]
  simp only [← hL, sortedValuesOf_eq, hLlen]
  set pos : ℚ := ((p : ℚ) / 100) * ((values.length : ℚ) - 1) with hposdef
  have hpos0 : 0 ≤ pos := by
    apply mul_nonneg
    · positivity
    · have : (1:ℚ) ≤ (values.length : ℚ) := by exact_mod_cast hn
      linarith
  have hfl0 : 0 ≤ ⌊pos⌋ := Int.floor_nonneg.mpr hpos0
  have hcast : (((⌊pos⌋).toNat : ℕ) : ℚ) = (⌊pos⌋ : ℚ) := by
    exact_mod_cast Int.toNat_of_nonneg hfl0
  by_cases hint : (⌊pos⌋ : ℚ) = pos
  · -- integral rank: the weight is zero and both sides reduce to the floor entry
    have hw : pos - ((⌊pos⌋).toNat : ℚ) = 0 := by
      rw [hcast, hint]
      ring
    have hw2 : pos - (⌊pos⌋ : ℚ) = 0 := by rw [hint]; ring
    rw [hw, hw2]
    ring
  · -- non-integral rank: the ceiling is the floor plus one, and the upper
    -- index of the source is not clipped by `min`
    have hflt : (⌊pos⌋ : ℚ) < pos := lt_of_le_of_ne (Int.floor_le pos) hint
    have hceil : ⌈pos⌉ = ⌊pos⌋ + 1 := by
      have h1 : ⌊pos⌋ + 1 ≤ ⌈pos⌉ := Int.add_one_le_ceil_iff.mpr hflt
      have h2 : ⌈pos⌉ ≤ ⌊pos⌋ + 1 := by
        apply Int.ceil_le.mpr
        push_cast
        exact le_of_lt (Int.lt_floor_add_one pos)
      omega
    have hn2 : 2 ≤ values.length := by
      rcases Nat.lt_or_ge values.length 2 with h2 | h2
      · exfalso
        have h1 : values.length = 1 := by omega
        have : pos = 0 := by
          rw [hposdef, h1]
          push_cast
          ring
        rw [this] at hint
        simp at hint
      · exact h2
    have hposlt : pos < (values.length : ℚ) - 1 := by
      have hq : (p : ℚ) / 100 < 1 := by
        rw [div_lt_one (by norm_num)]
        exact_mod_cast hp1
      have hpos' : (0:ℚ) < (values.length : ℚ) - 1 := by
        have : (2:ℚ) ≤ (values.length : ℚ) := by exact_mod_cast hn2
        linarith
      calc pos = ((p : ℚ) / 100) * ((values.length : ℚ) - 1) := hposdef
        _ < 1 * ((values.length : ℚ) - 1) := by
            exact mul_lt_mul_of_pos_right hq hpos'
        _ = (values.length : ℚ) - 1 := one_mul _
    have hfl_lt : ⌊pos⌋ < (values.length : ℤ) - 1 := by
      have : ⌊pos⌋ ≤ ⌊(values.length : ℚ) - 1⌋ := Int.floor_le_floor (le_of_lt hposlt)
      have heq : ⌊(values.length : ℚ) - 1⌋ = (values.length : ℤ) - 1 := by
        rw [show ((values.length : ℚ) - 1) = (((values.length : ℤ) - 1 : ℤ) : ℚ) by push_cast; ring]
        exact Int.floor_intCast _
      rcases eq_or_lt_of_le this with he | hlt
      · exfalso
        have : (⌊pos⌋ : ℚ) = (values.length : ℚ) - 1 := by
          rw [he, heq]
          push_cast
          ring
        have := hposlt
        have hup : pos ≤ (⌊pos⌋ : ℚ) := by
          rw [‹(⌊pos⌋ : ℚ) = (values.length : ℚ) - 1›]
          exact le_of_lt hposlt
        exact absurd hup (not_le.mpr hflt)
      · omega
    have hmin : min ((⌊pos⌋).toNat + 1) (values.length - 1) = (⌊pos⌋).toNat + 1 := by
      apply min_eq_left
      omega
    rw [hmin, hceil]
    have htn : ((⌊pos⌋ + 1)).toNat = (⌊pos⌋).toNat + 1 := by omega
    rw [htn, hcast]

/-! ### `CustomAlgorithms.detect_outliers_iqr`

Source (`custom_algorithms.py`, lines 135-166): fewer than 4 values returns
`([], {})` (no outliers, no stats); otherwise Q1/Q3 come from
`calculate_percentiles(values, [25, 75])`, the bounds are
`Q1 - multiplier*IQR` and `Q3 + multiplier*IQR`, and the returned index list
collects the positions whose value is strictly outside the bounds. -/

/-- The statistics dictionary returned by `detect_outliers_iqr`; the empty
dictionary of the short-input branch is modelled as `none`. -/
structure IqrStats where
  q1 : ℚ
  q3 : ℚ
  iqr : ℚ
  lower_bound : ℚ
  upper_bound : ℚ
  outlier_count : ℕ
deriving DecidableEq

/-- Source `CustomAlgorithms.detect_outliers_iqr`. -/
def detect_outliers_iqr (values : List ℚ) (multiplier : ℚ) : List ℕ × Option IqrStats :=
  if values.length < 4 then ([], none)
  else
    let ps := calculate_percentiles values [25, 75]
    let q1 := percLookup ps 25
    let q3 := percLookup ps 75
    let iqr := q3 - q1
    let lower_bound := q1 - multiplier * iqr
    let upper_bound := q3 + multiplier * iqr
    let outlier_indices := (values.enum.filter
      (fun iv => decide (iv.2 < lower_bound) || decide (upper_bound < iv.2))).map Prod.fst
    (outlier_indices, some ⟨q1, q3, iqr, lower_bound, upper_bound, outlier_indices.length⟩)

/-! ### `CustomAlgorithms.calculate_distance`

Source (`custom_algorithms.py`, lines 168-192): the haversine formula on a
sphere of radius 6371 km.  The source computes with Python floats; the
embedding idealises them as real numbers, which is the reading under which the
specification states symmetry, zero self-distance and nonnegativity. -/

/-- Source `math.radians`: degrees to radians. -/
noncomputable def radians (x : ℝ) : ℝ := x * (Real.pi / 180)

/-- Source `CustomAlgorithms.calculate_distance`: haversine distance in kilometres. -/
noncomputable def calculate_distance (lat1 lon1 lat2 lon2 : ℝ) : ℝ :=
  let lat1_rad := radians lat1
  let lon1_rad := radians lon1
  let lat2_rad := radians lat2
  let lon2_rad := radians lon2
  let dlat := lat2_rad - lat1_rad
  let dlon := lon2_rad - lon1_rad
  let a := Real.sin (dlat / 2) ^ 2 +
    Real.cos lat1_rad * Real.cos lat2_rad * Real.sin (dlon / 2) ^ 2
  let c := 2 * Real.arcsin (Real.sqrt a)
  6371.0 * c

/-! ### `CustomAlgorithms.find_top_k` and the heap helpers

Source (`custom_algorithms.py`, lines 253-302): if `k >= len(data)` the whole
input is sorted descending.  Otherwise a bounded min-heap of size `k` (root at
index 0, children of `i` at `2i+1`/`2i+2`) is maintained: an incoming item is
appended and sifted up while the heap has room, and otherwise replaces the
root and is sifted down when its key exceeds the root key.  The final heap is
sorted descending.  Accessing `heap[0]` on an empty heap (reachable only for
`k = 0` and non-empty data) raises `IndexError`, modelled as `none`. -/

/-- Key of the element at a heap index (only read under bounds guards). -/
def keyAt {α : Type} (k : α → ℚ) (l : List α) (i : ℕ) : ℚ :=
  ((l.get? i).map k).getD 0

/-- The Python parallel assignment `heap[i], heap[j] = heap[j], heap[i]`. -/
def listSwap {α : Type} (l : List α) (i j : ℕ) : List α :=
  match l.get? i, l.get? j with
  | some a, some b => (l.set i b).set j a
  | _, _ => l

/-- Source `CustomAlgorithms._heapify_up`. -/
def _heapify_up {α : Type} (k : α → ℚ) (heap : List α) (i : ℕ) : List α :=
  if 0 < i then
    let parent := (i - 1) / 2
    if keyAt k heap i < keyAt k heap parent then
      _heapify_up k (listSwap heap i parent) parent
    else heap
  else heap
termination_by i
decreasing_by omega

lemma listSwap_length {α : Type} (l : List α) (i j : ℕ) :
    (listSwap l i j).length = l.length := by
  unfold listSwap
  rcases l.get? i with _ | _ <;> rcases l.get? j with _ | _ <;> simp

/-- The index `smallest` computed by one `_heapify_down` pass: the smaller-key
child of `i` when it improves on `i`, else `i` itself. -/
def downTarget {α : Type} (k : α → ℚ) (heap : List α) (i : ℕ) : ℕ :=
  let leftChild := 2 * i + 1
  let rightChild := 2 * i + 2
  let s1 := if leftChild < heap.length ∧ keyAt k heap leftChild < keyAt k heap i
    then leftChild else i
  if rightChild < heap.length ∧ keyAt k heap rightChild < keyAt k heap s1
    then rightChild else s1

lemma downTarget_bounds {α : Type} (k : α → ℚ) (heap : List α) (i : ℕ) :
    i ≤ downTarget k heap i ∧
      (downTarget k heap i ≠ i → i < downTarget k heap i ∧ downTarget k heap i < heap.length) := by
  unfold downTarget
  dsimp only
  constructor
  · split
    · split
      · omega
      · omega
    · split
      · omega
      · exact le_rfl
  · split
    · rename_i h1
      split
      · rename_i h2
        intro _
        exact ⟨by omega, h2.1⟩
      · intro _
        exact ⟨by omega, h1.1⟩
    · split
      · rename_i h2
        intro _
        exact ⟨by omega, h2.1⟩
      · intro hne
        exact absurd rfl hne

/-- Source `CustomAlgorithms._heapify_down`. -/
def _heapify_down {α : Type} (k : α → ℚ) (heap : List α) (i : ℕ) : List α :=
  if downTarget k heap i ≠ i then
    _heapify_down k (listSwap heap i (downTarget k heap i)) (downTarget k heap i)
  else heap
termination_by heap.length - i
decreasing_by
  rename_i hne
  have hb := downTarget_bounds k heap i
  have hlen := listSwap_length heap i (downTarget k heap i)
  rw [hlen]
  have := hb.2 hne
  omega

/-- One iteration of the `find_top_k` accumulation loop; `none` models the
`IndexError` raised by `heap[0]` on an empty heap. -/
def topKStep {α : Type} (k : α → ℚ) (kk : ℕ) (heap : List α) (item : α) :
    Option (List α) :=
  if heap.length < kk then
    some (_heapify_up k (heap ++ [item]) (heap ++ [item]).length.pred)
  else
    match heap.get? 0 with
    | none => none
    | some root =>
      if k root < k item then some (_heapify_down k (heap.set 0 item) 0)
      else some heap

/-- Source `CustomAlgorithms.find_top_k`. -/
def find_top_k {α : Type} (k : α → ℚ) (data : List α) (kk : ℕ) :
    Option (List α) :=
  if data.length ≤ kk then some (quick_sort k true data)
  else (data.foldlM (topKStep k kk) []).map (quick_sort k true)

/-- The min-heap shape invariant: every non-root entry is keyed at least as
large as its parent at `(j-1)/2`. -/
def IsMinHeap {α : Type} (k : α → ℚ) (l : List α) : Prop :=
  ∀ j, 0 < j → j < l.length → keyAt k l ((j - 1) / 2) ≤ keyAt k l j

lemma isMinHeap_root_le {α : Type} {k : α → ℚ} {l : List α} (h : IsMinHeap k l) :
    ∀ j, j < l.length → keyAt k l 0 ≤ keyAt k l j := by
  intro j
  induction j using Nat.strong_induction_on with
  | _ j ih =>
    intro hj
    rcases Nat.eq_zero_or_pos j with h0 | h0
    · subst h0
      exact le_rfl
    · have hpar : (j - 1) / 2 < j := by omega
      exact le_trans (ih _ hpar (lt_trans (by omega) hj)) (h j h0 hj)

lemma get?_swap {α : Type} (l : List α) (i j : ℕ) (hi : i < l.length) (hj : j < l.length)
    (m : ℕ) : (listSwap l i j).get? m =
      if m = j then l.get? i else if m = i then l.get? j else l.get? m := by
  unfold listSwap
  rw [List.get?_eq_get hi, List.get?_eq_get hj]
  simp only [List.get?_eq_getElem?]
  by_cases hmj : m = j
  · subst hmj
    rw [if_pos rfl, List.getElem?_set_self (by simp [hj])]
  · rw [if_neg hmj, List.getElem?_set_ne (Ne.symm hmj)]
    by_cases hmi : m = i
    · subst hmi
      rw [if_pos rfl, List.getElem?_set_self hi]
    · rw [if_neg hmi, List.getElem?_set_ne (Ne.symm hmi)]

lemma keyAt_swap {α : Type} (k : α → ℚ) (l : List α) (i j : ℕ)
    (hi : i < l.length) (hj : j < l.length) (m : ℕ) : keyAt k (listSwap l i j) m =
      if m = j then keyAt k l i else if m = i then keyAt k l j else keyAt k l m := by
  unfold keyAt
  rw [get?_swap l i j hi hj m]
  by_cases hmj : m = j
  · rw [if_pos hmj, if_pos hmj]
  · rw [if_neg hmj, if_neg hmj]
    by_cases hmi : m = i
    · rw [if_pos hmi, if_pos hmi]
    · rw [if_neg hmi, if_neg hmi]

lemma listSwap_perm {α : Type} (l : List α) (i j : ℕ) (hi : i < l.length)
    (hj : j < l.length) (hij : i ≠ j) : List.Perm (listSwap l i j) l := by
  · -- the two `set` calls exchange the elements: argue on the multisets
    have hset : ∀ (t : List α) (n : ℕ) (hn : n < t.length) (x : α),
        (t.get ⟨n, hn⟩) ::ₘ ((t.set n x : List α) : Multiset α) = x ::ₘ (t : Multiset α) := by
      intro t n hn x
      have hl : t = t.take n ++ t.get ⟨n, hn⟩ :: t.drop (n + 1) := by
        conv_lhs => rw [← List.take_append_drop n t]
        congr 1
        rw [← List.getElem_cons_drop t n hn]
        rfl
      rw [List.set_eq_take_cons_drop x hn]
      conv_rhs => rw [hl]
      rw [← Multiset.coe_add, ← Multiset.coe_add, ← Multiset.cons_coe, ← Multiset.cons_coe]
      rw [← Multiset.singleton_add, ← Multiset.singleton_add, ← Multiset.singleton_add,
        ← Multiset.singleton_add]
      abel
    unfold listSwap
    rw [List.get?_eq_get hi, List.get?_eq_get hj]
    apply Multiset.coe_eq_coe.mp
    have hj' : j < (l.set i (l.get ⟨j, hj⟩)).length := by simp [hj]
    have e2 := hset (l.set i (l.get ⟨j, hj⟩)) j hj' (l.get ⟨i, hi⟩)
    have e1 := hset l i hi (l.get ⟨j, hj⟩)
    have hgj : (l.set i (l.get ⟨j, hj⟩)).get ⟨j, hj'⟩ = l.get ⟨j, hj⟩ := by
      simp only [List.get_eq_getElem]
      exact List.getElem_set_ne hij _
    rw [hgj] at e2
    -- e2 : b ::ₘ ↑(swap) = a ::ₘ ↑(l.set i b), e1 : a ::ₘ ↑(l.set i b) = b ::ₘ ↑l
    have := e2.trans e1
    exact (Multiset.cons_inj_right _).mp this

/-- Sift-up correctness: if the list satisfies the heap shape everywhere except
possibly on the edge into `i`, and the children of `i` are already keyed at
least as large as `i`'s grandparent-value, then `_heapify_up` restores the heap
shape, permuting the list. -/
lemma heapify_up_correct {α : Type} (k : α → ℚ) :
    ∀ i (l : List α), i < l.length →
      (∀ j, 0 < j → j < l.length → j ≠ i → keyAt k l ((j - 1) / 2) ≤ keyAt k l j) →
      (∀ c, 0 < c → c < l.length → (c - 1) / 2 = i →
        keyAt k l ((i - 1) / 2) ≤ keyAt k l c) →
      IsMinHeap k (_heapify_up k l i) ∧ List.Perm (_heapify_up k l i) l := by
  intro i
  induction i using Nat.strong_induction_on with
  | _ i ih =>
    intro l hi h1 h2
    rw [_heapify_up]
    dsimp only
    split
    case isFalse h0 =>
      have hi0 : i = 0 := by omega
      subst hi0
      exact ⟨fun j hj hjl => h1 j hj hjl (by omega), List.Perm.refl l⟩
    case isTrue h0 =>
      split
      case isFalse hswap =>
        refine ⟨fun j hj hjl => ?_, List.Perm.refl l⟩
        by_cases hji : j = i
        · subst hji
          exact le_of_not_lt hswap
        · exact h1 j hj hjl hji
      case isTrue hswap =>
        have hpi : (i - 1) / 2 < i := by omega
        have hpl : (i - 1) / 2 < l.length := lt_trans hpi hi
        have hkey := keyAt_swap k l i ((i - 1) / 2) hi hpl
        have hlen2 : (listSwap l i ((i - 1) / 2)).length = l.length := listSwap_length l i _
        have hip : i ≠ (i - 1) / 2 := by omega
        have key_other : ∀ m, m ≠ i → m ≠ (i - 1) / 2 →
            keyAt k (listSwap l i ((i - 1) / 2)) m = keyAt k l m := by
          intro m hm1 hm2
          rw [hkey m, if_neg hm2, if_neg hm1]
        have key_p : keyAt k (listSwap l i ((i - 1) / 2)) ((i - 1) / 2) = keyAt k l i := by
          rw [hkey _, if_pos rfl]
        have key_i : keyAt k (listSwap l i ((i - 1) / 2)) i = keyAt k l ((i - 1) / 2) := by
          rw [hkey _, if_neg hip, if_pos rfl]
        have hyp1' : ∀ j, 0 < j → j < (listSwap l i ((i - 1) / 2)).length →
            j ≠ (i - 1) / 2 → keyAt k (listSwap l i ((i - 1) / 2)) ((j - 1) / 2) ≤
              keyAt k (listSwap l i ((i - 1) / 2)) j := by
          -- heap shape everywhere except the edge into the parent position
          intro j hj hjl hjp
          rw [hlen2] at hjl
          by_cases hji : j = i
          · subst hji
            rw [key_p, key_i]
            exact le_of_lt hswap
          · by_cases hpj : (j - 1) / 2 = i
            · have hij2 : i < j := by omega
              rw [hpj, key_i, key_other j hji (by omega)]
              exact h2 j hj hjl hpj
            · by_cases hpj2 : (j - 1) / 2 = (i - 1) / 2
              · rw [hpj2, key_p, key_other j hji hjp]
                have h1j := h1 j hj hjl hji
                rw [hpj2] at h1j
                exact le_trans (le_of_lt hswap) h1j
              · rw [key_other j hji hjp, key_other ((j - 1) / 2) hpj hpj2]
                exact h1 j hj hjl hji
        have hyp2' : ∀ c, 0 < c → c < (listSwap l i ((i - 1) / 2)).length →
            (c - 1) / 2 = (i - 1) / 2 →
            keyAt k (listSwap l i ((i - 1) / 2)) (((i - 1) / 2 - 1) / 2) ≤
              keyAt k (listSwap l i ((i - 1) / 2)) c := by
          -- the children of the parent position dominate the value that the
          -- swap moved there
          intro c hc hcl hcp
          rw [hlen2] at hcl
          have hcnp : c ≠ (i - 1) / 2 := by omega
          by_cases hp0 : (i - 1) / 2 = 0
          · have hg : (((i - 1) / 2 - 1) / 2) = (i - 1) / 2 := by omega
            rw [hg, key_p]
            by_cases hci : c = i
            · rw [hci, key_i]
              exact le_of_lt hswap
            · rw [key_other c hci hcnp]
              have h1c := h1 c hc hcl hci
              rw [hcp] at h1c
              exact le_trans (le_of_lt hswap) h1c
          · rw [key_other (((i - 1) / 2 - 1) / 2) (by omega) (by omega)]
            by_cases hci : c = i
            · rw [hci, key_i]
              exact h1 ((i - 1) / 2) (by omega) hpl hip.symm
            · rw [key_other c hci hcnp]
              have hc1 := h1 c hc hcl hci
              rw [hcp] at hc1
              have hc2 := h1 ((i - 1) / 2) (by omega) hpl hip.symm
              exact le_trans hc2 hc1
        obtain ⟨hheap, hperm⟩ := ih ((i - 1) / 2) hpi (listSwap l i ((i - 1) / 2))
          (by omega) hyp1' hyp2'
        exact ⟨hheap, hperm.trans (listSwap_perm l i ((i - 1) / 2) hi hpl hip)⟩

lemma downTarget_eq_self {α : Type} (k : α → ℚ) (l : List α) (i : ℕ)
    (h : downTarget k l i = i) :
    (2 * i + 1 < l.length → keyAt k l i ≤ keyAt k l (2 * i + 1)) ∧
    (2 * i + 2 < l.length → keyAt k l i ≤ keyAt k l (2 * i + 2)) := by
  unfold downTarget at h
  dsimp only at h
  by_cases hl : 2 * i + 1 < l.length ∧ keyAt k l (2 * i + 1) < keyAt k l i
  · rw [if_pos hl] at h
    split at h <;> omega
  · rw [if_neg hl] at h
    split at h
    · omega
    · rename_i hr
      constructor
      · intro h1
        by_cases hk : keyAt k l (2 * i + 1) < keyAt k l i
        · exact absurd ⟨h1, hk⟩ hl
        · exact le_of_not_lt hk
      · intro h2
        by_cases hk : keyAt k l (2 * i + 2) < keyAt k l i
        · exact absurd ⟨h2, hk⟩ hr
        · exact le_of_not_lt hk

lemma downTarget_ne_self {α : Type} (k : α → ℚ) (l : List α) (i : ℕ)
    (h : downTarget k l i ≠ i) :
    (downTarget k l i = 2 * i + 1 ∨ downTarget k l i = 2 * i + 2) ∧
    downTarget k l i < l.length ∧
    keyAt k l (downTarget k l i) < keyAt k l i ∧
    (∀ j, (j = 2 * i + 1 ∨ j = 2 * i + 2) → j < l.length →
      keyAt k l (downTarget k l i) ≤ keyAt k l j) := by
  unfold downTarget at h ⊢
  dsimp only at h ⊢
  by_cases hl : 2 * i + 1 < l.length ∧ keyAt k l (2 * i + 1) < keyAt k l i
  · rw [if_pos hl] at h ⊢
    by_cases hr : 2 * i + 2 < l.length ∧ keyAt k l (2 * i + 2) < keyAt k l (2 * i + 1)
    · rw [if_pos hr] at h ⊢
      refine ⟨Or.inr rfl, hr.1, lt_trans hr.2 hl.2, ?_⟩
      intro j hj hjl
      rcases hj with h1 | h2
      · subst h1
        exact le_of_lt hr.2
      · subst h2
        exact le_rfl
    · rw [if_neg hr] at h ⊢
      refine ⟨Or.inl rfl, hl.1, hl.2, ?_⟩
      intro j hj hjl
      rcases hj with h1 | h2
      · subst h1
        exact le_rfl
      · subst h2
        by_cases hk : keyAt k l (2 * i + 2) < keyAt k l (2 * i + 1)
        · exact absurd ⟨hjl, hk⟩ hr
        · exact le_of_not_lt hk
  · rw [if_neg hl] at h ⊢
    by_cases hr : 2 * i + 2 < l.length ∧ keyAt k l (2 * i + 2) < keyAt k l i
    · rw [if_pos hr] at h ⊢
      refine ⟨Or.inr rfl, hr.1, hr.2, ?_⟩
      intro j hj hjl
      rcases hj with h1 | h2
      · subst h1
        have h21 : ¬ keyAt k l (2 * i + 1) < keyAt k l i := fun hk => hl ⟨by omega, hk⟩
        exact le_trans (le_of_lt hr.2) (le_of_not_lt h21)
      · subst h2
        exact le_rfl
    · rw [if_neg hr] at h
      exact absurd rfl h

/-- Sift-down correctness: if the list satisfies the heap shape everywhere
except possibly on the edges out of `i`, and the children of `i` already
dominate `i`'s parent value, then `_heapify_down` restores the heap shape,
permuting the list. -/
lemma heapify_down_correct {α : Type} (k : α → ℚ) :
    ∀ n i (l : List α), l.length - i ≤ n →
      (∀ j, 0 < j → j < l.length → (j - 1) / 2 ≠ i →
        keyAt k l ((j - 1) / 2) ≤ keyAt k l j) →
      (∀ c, 0 < c → c < l.length → (c - 1) / 2 = i → 0 < i →
        keyAt k l ((i - 1) / 2) ≤ keyAt k l c) →
      IsMinHeap k (_heapify_down k l i) ∧ List.Perm (_heapify_down k l i) l := by
  intro n
  induction n with
  | zero =>
    intro i l hfuel h1 h2
    -- no fuel: the index is past the end, the target is the index itself
    have hil : l.length ≤ i := by omega
    have htar : downTarget k l i = i := by
      unfold downTarget
      dsimp only
      rw [if_neg (by omega), if_neg (by push_neg; intro hc; omega)]
    rw [_heapify_down, if_neg (by omega : ¬ downTarget k l i ≠ i)]
    exact ⟨fun j hj hjl => h1 j hj hjl (by omega), List.Perm.refl l⟩
  | succ m ih =>
    intro i l hfuel h1 h2
    rw [_heapify_down]
    split
    case isFalse htar =>
      push_neg at htar
      obtain ⟨hleft, hright⟩ := downTarget_eq_self k l i htar
      refine ⟨fun j hj hjl => ?_, List.Perm.refl l⟩
      by_cases hpar : (j - 1) / 2 = i
      · have hj12 : j = 2 * i + 1 ∨ j = 2 * i + 2 := by omega
        rw [hpar]
        rcases hj12 with he | he
        · rw [he] at hjl ⊢
          exact hleft hjl
        · rw [he] at hjl ⊢
          exact hright hjl
      · exact h1 j hj hjl hpar
    case isTrue htar =>
      obtain ⟨hchild, hslen, hslt, hsmin⟩ := downTarget_ne_self k l i htar
      have his : i < downTarget k l i := by omega
      have hil : i < l.length := lt_trans his hslen
      have hkey := keyAt_swap k l i (downTarget k l i) hil hslen
      have hlen2 : (listSwap l i (downTarget k l i)).length = l.length :=
        listSwap_length l i _
      have hins : i ≠ downTarget k l i := by omega
      have key_other : ∀ m, m ≠ i → m ≠ downTarget k l i →
          keyAt k (listSwap l i (downTarget k l i)) m = keyAt k l m := by
        intro m hm1 hm2
        rw [hkey m, if_neg hm2, if_neg hm1]
      have key_s : keyAt k (listSwap l i (downTarget k l i)) (downTarget k l i) =
          keyAt k l i := by
        rw [hkey _, if_pos rfl]
      have key_i : keyAt k (listSwap l i (downTarget k l i)) i =
          keyAt k l (downTarget k l i) := by
        rw [hkey _, if_neg hins, if_pos rfl]
      have hpars : (downTarget k l i - 1) / 2 = i := by omega
      have hyp1' : ∀ j, 0 < j → j < (listSwap l i (downTarget k l i)).length →
          (j - 1) / 2 ≠ downTarget k l i →
          keyAt k (listSwap l i (downTarget k l i)) ((j - 1) / 2) ≤
            keyAt k (listSwap l i (downTarget k l i)) j := by
        intro j hj hjl hjpars
        rw [hlen2] at hjl
        by_cases hji : j = i
        · -- the edge into the old index `i` (which now holds the small value)
          have hi0 : 0 < i := by omega
          have hpi : (i - 1) / 2 ≠ i := by omega
          have hpis : (i - 1) / 2 ≠ downTarget k l i := by omega
          rw [hji, key_i, key_other ((i - 1) / 2) hpi hpis]
          exact h2 (downTarget k l i) (by omega) hslen hpars hi0
        · by_cases hjs : j = downTarget k l i
          · rw [hjs, hpars, key_i, key_s]
            exact le_of_lt hslt
          · by_cases hpar : (j - 1) / 2 = i
            · -- j is the sibling child of the swapped-in position
              rw [hpar, key_i, key_other j hji hjs]
              exact hsmin j (by omega) hjl
            · rw [key_other j hji hjs, key_other ((j - 1) / 2) hpar hjpars]
              exact h1 j hj hjl hpar
      have hyp2' : ∀ c, 0 < c → c < (listSwap l i (downTarget k l i)).length →
          (c - 1) / 2 = downTarget k l i → 0 < downTarget k l i →
          keyAt k (listSwap l i (downTarget k l i)) ((downTarget k l i - 1) / 2) ≤
            keyAt k (listSwap l i (downTarget k l i)) c := by
        intro c hc hcl hcpar hs0
        rw [hlen2] at hcl
        have hcs : c ≠ downTarget k l i := by omega
        have hci : c ≠ i := by omega
        rw [hpars, key_i, key_other c hci hcs]
        have := h1 c hc hcl (by omega)
        rw [hcpar] at this
        exact this
      obtain ⟨hheap, hperm⟩ := ih (downTarget k l i) (listSwap l i (downTarget k l i))
        (by omega) hyp1' hyp2'
      exact ⟨hheap, hperm.trans (listSwap_perm l i (downTarget k l i) hil hslen hins)⟩

lemma keyAt_append {α : Type} (k : α → ℚ) (h t : List α) (m : ℕ) (hm : m < h.length) :
    keyAt k (h ++ t) m = keyAt k h m := by
  unfold keyAt
  simp only [List.get?_eq_getElem?]
  rw [List.getElem?_append_left hm]

lemma keyAt_set_ne {α : Type} (k : α → ℚ) (l : List α) (n m : ℕ) (x : α) (h : n ≠ m) :
    keyAt k (l.set n x) m = keyAt k l m := by
  unfold keyAt
  simp only [List.get?_eq_getElem?]
  rw [List.getElem?_set_ne h]

/-- Appending a fresh item and sifting it up from the last position keeps the
heap shape. -/
lemma heapify_up_append {α : Type} (k : α → ℚ) (h : List α) (x : α)
    (hh : IsMinHeap k h) :
    IsMinHeap k (_heapify_up k (h ++ [x]) h.length) ∧
      List.Perm (_heapify_up k (h ++ [x]) h.length) (h ++ [x]) := by
  apply heapify_up_correct k h.length (h ++ [x]) (by simp)
  · intro j hj hjl hji
    have hjh : j < h.length := by
      simp only [List.length_append, List.length_singleton] at hjl
      omega
    rw [keyAt_append k h [x] j hjh, keyAt_append k h [x] ((j - 1) / 2) (by omega)]
    exact hh j hj hjh
  · intro c hc hcl hcp
    exfalso
    simp only [List.length_append, List.length_singleton] at hcl
    omega

/-- Replacing the root and sifting it down keeps the heap shape. -/
lemma heapify_down_root {α : Type} (k : α → ℚ) (h : List α) (x : α)
    (hh : IsMinHeap k h) :
    IsMinHeap k (_heapify_down k (h.set 0 x) 0) ∧
      List.Perm (_heapify_down k (h.set 0 x) 0) (h.set 0 x) := by
  apply heapify_down_correct k (h.set 0 x).length 0 (h.set 0 x) (by omega)
  · intro j hj hjl hpar
    have hj' : j < h.length := by
      simp only [List.length_set] at hjl
      exact hjl
    rw [keyAt_set_ne k h 0 j x (by omega), keyAt_set_ne k h 0 ((j - 1) / 2) x (by omega)]
    exact hh j hj hj'
  · intro c hc hcl hcp h0
    exact absurd h0 (lt_irrefl 0)

/-- The loop invariant of `find_top_k`: the heap is shape-correct, has the
required bounded size, and holds a sub-multiset of the processed items that
key-dominates everything discarded so far. -/
def TopKInv {α : Type} (k : α → ℚ) (kk : ℕ) (heap processed : List α) : Prop :=
  IsMinHeap k heap ∧ heap.length = min kk processed.length ∧
  ∃ rest : List α, List.Perm processed (heap ++ rest) ∧
    ∀ b ∈ rest, ∀ a ∈ heap, k b ≤ k a

lemma mem_key_le_of_minHeap {α : Type} {k : α → ℚ} {heap : List α} (hh : IsMinHeap k heap)
    {root : α} (hr : heap.get? 0 = some root) : ∀ a ∈ heap, k root ≤ k a := by
  intro a ha
  obtain ⟨n, hget⟩ := List.mem_iff_get.mp ha
  have h0 : keyAt k heap 0 = k root := by
    unfold keyAt
    rw [hr]
    rfl
  have hn' : keyAt k heap n = k a := by
    unfold keyAt
    rw [List.get?_eq_get n.isLt]
    rw [Fin.eta n n.isLt, hget]
    rfl
  rw [← h0, ← hn']
  exact isMinHeap_root_le hh n n.isLt

lemma perm_root_replaced {α : Type} (tail rest P h2 : List α) (root x : α)
    (hperm : List.Perm P ((root :: tail) ++ rest))
    (hh2 : List.Perm h2 (x :: tail)) :
    List.Perm (P ++ [x]) (h2 ++ (rest ++ [root])) := by
  apply Multiset.coe_eq_coe.mp
  have e1 : (P : Multiset α) = ↑((root :: tail) ++ rest) := Multiset.coe_eq_coe.mpr hperm
  have e2 : (h2 : Multiset α) = ↑(x :: tail) := Multiset.coe_eq_coe.mpr hh2
  rw [← Multiset.coe_add, ← Multiset.coe_add, e1, e2]
  simp only [← Multiset.cons_coe, ← Multiset.coe_add, ← Multiset.singleton_add,
    Multiset.coe_nil]
  abel

/-- One `find_top_k` loop iteration preserves the invariant (for `k ≥ 1`). -/
lemma topKStep_inv {α : Type} (k : α → ℚ) (kk : ℕ) (hkk : 1 ≤ kk)
    (heap P : List α) (x : α) (hinv : TopKInv k kk heap P) :
    ∃ h2, topKStep k kk heap x = some h2 ∧ TopKInv k kk h2 (P ++ [x]) := by
  obtain ⟨hheap, hlen, rest, hperm, hdom⟩ := hinv
  unfold topKStep
  by_cases hroom : heap.length < kk
  · rw [if_pos hroom]
    have hPlen : heap.length = P.length := by omega
    have hrest : rest = [] := by
      have := hperm.length_eq
      simp only [List.length_append] at this
      have : rest.length = 0 := by omega
      exact List.length_eq_zero.mp this
    subst hrest
    have hupidx : (heap ++ [x]).length.pred = heap.length := by simp
    obtain ⟨hmh, hp⟩ := heapify_up_append k heap x hheap
    rw [hupidx]
    refine ⟨_, rfl, hmh, ?_, [], ?_, by simp⟩
    · rw [hp.length_eq]
      simp only [List.length_append, List.length_singleton]
      omega
    · rw [List.append_nil]
      calc List.Perm (P ++ [x]) (heap ++ [x]) := by
            rw [List.append_nil] at hperm
            exact hperm.append_right [x]
        _ ~ _ := hp.symm
  · rw [if_neg hroom]
    have hlenk : heap.length = kk := by omega
    have hne : heap ≠ [] := by
      intro hcon
      rw [hcon] at hlenk
      simp at hlenk
      omega
    match hhd : heap, hne with
    | root :: tail, _ =>
      rw [List.get?_cons_zero]
      dsimp only
      have hroot : (root :: tail).get? 0 = some root := rfl
      have hrootmin := mem_key_le_of_minHeap hheap hroot
      by_cases hx : k root < k x
      · rw [if_pos hx]
        have hset : (root :: tail).set 0 x = x :: tail := rfl
        obtain ⟨hmh, hp⟩ := heapify_down_root k (root :: tail) x hheap
        rw [hset] at hmh hp
        refine ⟨_, rfl, hmh, ?_, rest ++ [root], ?_, ?_⟩
        · rw [hset, hp.length_eq]
          have hl1 : tail.length + 1 = kk := by simpa using hlenk
          have hl2 : kk ≤ P.length := by
            simp only [List.length_cons] at hlen
            omega
          simp only [List.length_cons, List.length_append, List.length_singleton]
          omega
        · exact perm_root_replaced tail rest P _ root x hperm hp
        · intro b hb a ha
          have ha' : a ∈ x :: tail := hp.mem_iff.mp ha
          rcases List.mem_append.mp hb with hb1 | hb2
          · rcases List.mem_cons.mp ha' with ha1 | ha2
            · subst ha1
              exact le_trans (hdom b hb1 root (List.mem_cons_self root tail))
                (le_of_lt hx)
            · exact hdom b hb1 a (List.mem_cons_of_mem root ha2)
          · have hbroot : b = root := by
              simpa using hb2
            rcases List.mem_cons.mp ha' with ha1 | ha2
            · rw [hbroot, ha1]
              exact le_of_lt hx
            · rw [hbroot]
              exact hrootmin a (List.mem_cons_of_mem root ha2)
      · rw [if_neg hx]
        refine ⟨_, rfl, hheap, ?_, rest ++ [x], ?_, ?_⟩
        · have hl1 : tail.length + 1 = kk := by simpa using hlenk
          have hl2 : kk ≤ P.length := by
            simp only [List.length_cons] at hlen
            omega
          simp only [List.length_cons, List.length_append, List.length_singleton]
          omega
        · rw [← List.append_assoc]
          exact hperm.append_right [x]
        · intro b hb a ha
          rcases List.mem_append.mp hb with hb1 | hb2
          · exact hdom b hb1 a ha
          · have hbx : b = x := by simpa using hb2
            subst hbx
            exact le_trans (le_of_not_lt hx) (hrootmin a ha)

/-- Folding `topKStep` over the data maintains the invariant and never hits
the empty-heap `IndexError` when `k ≥ 1`. -/
lemma topK_fold_inv {α : Type} (k : α → ℚ) (kk : ℕ) (hkk : 1 ≤ kk) :
    ∀ (data heap P : List α), TopKInv k kk heap P →
      ∃ hfin, List.foldlM (topKStep k kk) heap data = some hfin ∧
        TopKInv k kk hfin (P ++ data) := by
  intro data
  induction data with
  | nil =>
    intro heap P hinv
    exact ⟨heap, rfl, by simpa using hinv⟩
  | cons x xs ih =>
    intro heap P hinv
    obtain ⟨h2, hstep, hinv2⟩ := topKStep_inv k kk hkk heap P x hinv
    obtain ⟨hfin, hfold, hinv3⟩ := ih h2 (P ++ [x]) hinv2
    refine ⟨hfin, ?_, ?_⟩
    · rw [List.foldlM_cons, hstep]
      simpa using hfold
    · rw [List.append_assoc] at hinv3
      simpa using hinv3

lemma topKInv_nil {α : Type} (k : α → ℚ) (kk : ℕ) : TopKInv k kk [] [] := by
  refine ⟨fun j hj hjl => ?_, by simp, [], by simp, by simp⟩
  simp at hjl

/-- Key uniqueness of bounded selection: a size-`kk` dominating sub-multiset
sorts to exactly the first `kk` entries of the descending sort of the data
keys. -/
lemma topk_take {α : Type} (k : α → ℚ) (kk : ℕ) (heap data rest : List α)
    (hperm : List.Perm data (heap ++ rest))
    (hdom : ∀ b ∈ rest, ∀ a ∈ heap, k b ≤ k a)
    (hlen : heap.length = kk) :
    List.insertionSort (· ≥ ·) (heap.map k) =
      (List.insertionSort (· ≥ ·) (data.map k)).take kk := by
  have hSR : (List.insertionSort (· ≥ ·) (heap.map k) ++
      List.insertionSort (· ≥ ·) (rest.map k)).Sorted (· ≥ ·) := by
    show List.Pairwise (· ≥ ·) (List.insertionSort (· ≥ ·) (heap.map k) ++
      List.insertionSort (· ≥ ·) (rest.map k))
    rw [List.pairwise_append]
    refine ⟨List.sorted_insertionSort _ _, List.sorted_insertionSort _ _, ?_⟩
    intro a ha b hb
    have ha' : a ∈ heap.map k := (List.perm_insertionSort _ _).mem_iff.mp ha
    have hb' : b ∈ rest.map k := (List.perm_insertionSort _ _).mem_iff.mp hb
    obtain ⟨a0, ha0, rfl⟩ := List.mem_map.mp ha'
    obtain ⟨b0, hb0, rfl⟩ := List.mem_map.mp hb'
    exact hdom b0 hb0 a0 ha0
  have hp2 : List.Perm (List.insertionSort (· ≥ ·) (heap.map k) ++
      List.insertionSort (· ≥ ·) (rest.map k)) (List.insertionSort (· ≥ ·) (data.map k)) := by
    have h1 : List.Perm (List.insertionSort (· ≥ ·) (heap.map k) ++
        List.insertionSort (· ≥ ·) (rest.map k)) (heap.map k ++ rest.map k) :=
      (List.perm_insertionSort _ _).append (List.perm_insertionSort _ _)
    have h2 : heap.map k ++ rest.map k = (heap ++ rest).map k := (List.map_append _ _ _).symm
    have h3 : List.Perm ((heap ++ rest).map k) (data.map k) := (hperm.map k).symm
    have h4 : List.Perm (data.map k) (List.insertionSort (· ≥ ·) (data.map k)) :=
      (List.perm_insertionSort _ _).symm
    exact ((h1.trans (h2 ▸ List.Perm.refl _)).trans h3).trans h4
  have heq : List.insertionSort (· ≥ ·) (heap.map k) ++
      List.insertionSort (· ≥ ·) (rest.map k) = List.insertionSort (· ≥ ·) (data.map k) :=
    List.eq_of_perm_of_sorted hp2 hSR (List.sorted_insertionSort _ _)
  have hlenS : (List.insertionSort (· ≥ ·) (heap.map k)).length = kk := by
    rw [List.length_insertionSort, List.length_map]
    exact hlen
  rw [← heq, ← hlenS, List.take_left]

/-- For `1 ≤ k ≤ len(data)`, `find_top_k` succeeds and its key projection is
exactly the first `k` entries of the descending sort of all keys. -/
lemma find_top_k_keys {α : Type} (k : α → ℚ) (data : List α) (kk : ℕ)
    (hkk : 1 ≤ kk) (hk : kk ≤ data.length) :
    (find_top_k k data kk).map (List.map k) =
      some ((List.insertionSort (· ≥ ·) (data.map k)).take kk) := by
  unfold find_top_k
  by_cases hge : data.length ≤ kk
  · rw [if_pos hge]
    have hkeq : kk = data.length := le_antisymm hk hge
    simp only [Option.map_some']
    congr 1
    rw [quick_sort_map_key_true]
    have hL : kk = (List.insertionSort (· ≥ ·) (data.map k)).length := by
      rw [List.length_insertionSort, List.length_map]
      exact hkeq
    rw [hL, List.take_length]
  · rw [if_neg hge]
    obtain ⟨hfin, hfold, hinv⟩ := topK_fold_inv k kk hkk data [] [] (topKInv_nil k kk)
    simp only [List.nil_append] at hinv
    rw [hfold]
    simp only [Option.map_some']
    obtain ⟨hheap, hlen, rest, hperm, hdom⟩ := hinv
    congr 1
    rw [quick_sort_map_key_true]
    refine topk_take k kk hfin data rest hperm hdom ?_
    rw [hlen]
    omega

/-! ### Parsing helpers

`float(...)` and `int(...)` on the decimal string forms occurring in the data,
and `datetime.strptime(s, "%Y-%m-%d %H:%M:%S")`.  Exotic float syntax
(exponents, `inf`, `nan`) does not occur in this pipeline and is not
modelled. -/

/-- Numeric value of a digit string. -/
def digitsVal (cs : List Char) : ℕ :=
  cs.foldl (fun n c => 10 * n + (c.toNat - 48)) 0

def isSpaceChar (c : Char) : Bool :=
  decide (c = ' ') || decide (c = '\t') || decide (c = '\n') || decide (c = '\r')

/-- Strip surrounding whitespace (the tolerance of `float()`/`int()`). -/
def trimChars (cs : List Char) : List Char :=
  ((cs.dropWhile isSpaceChar).reverse.dropWhile isSpaceChar).reverse

/-- Source `str.split(sep)` for a one-character separator. -/
def splitChars (sep : Char) : List Char → List (List Char)
  | [] => [[]]
  | c :: t =>
    if c = sep then [] :: splitChars sep t
    else
      match splitChars sep t with
      | h :: r => (c :: h) :: r
      | [] => [[c]]

/-- Split a leading sign off a character list, as `float`/`int` accept. -/
def splitSign (cs : List Char) : ℚ × List Char :=
  match cs with
  | '-' :: t => (-1, t)
  | '+' :: t => (1, t)
  | t => (1, t)

/-- Source `float(s)` on decimal literals: optional sign, digits with at most one
point, surrounding whitespace allowed. -/
def parseRat (s : String) : Option ℚ :=
  let cs := trimChars s.toList
  let sgn := (splitSign cs).1
  let rest := (splitSign cs).2
  if rest.contains '.' then
    let ip := rest.takeWhile (fun c => c ≠ '.')
    let fp := (rest.dropWhile (fun c => c ≠ '.')).tail
    if fp.contains '.' then none
    else if (ip ≠ [] ∨ fp ≠ []) ∧ ip.all Char.isDigit ∧ fp.all Char.isDigit then
      some (sgn * ((digitsVal ip : ℚ) + (digitsVal fp : ℚ) / (10 : ℚ) ^ fp.length))
    else none
  else if rest ≠ [] ∧ rest.all Char.isDigit then some (sgn * (digitsVal rest : ℚ))
  else none

/-- Source `int(s)`: optional sign and digits only. -/
def parseInt (s : String) : Option ℤ :=
  let cs := trimChars s.toList
  let rest := (splitSign cs).2
  let sgn : ℤ := if (splitSign cs).1 = -1 then -1 else 1
  if rest ≠ [] ∧ rest.all Char.isDigit then some (sgn * (digitsVal rest : ℤ))
  else none

/-- A parsed wall-clock timestamp. -/
structure DateTime where
  year : ℕ
  month : ℕ
  day : ℕ
  hour : ℕ
  minute : ℕ
  second : ℕ
deriving DecidableEq

def isLeapYear (y : ℕ) : Bool :=
  y % 4 == 0 && (y % 100 != 0 || y % 400 == 0)

def daysInMonth (y m : ℕ) : ℕ :=
  if m = 2 then (if isLeapYear y then 29 else 28)
  else if m = 4 ∨ m = 6 ∨ m = 9 ∨ m = 11 then 30
  else 31

def daysBeforeMonth (y m : ℕ) : ℕ :=
  (List.range (m - 1)).foldl (fun acc i => acc + daysInMonth y (i + 1)) 0

def leapsBefore (y : ℕ) : ℕ :=
  if y = 0 then 0 else (y - 1) / 4 - (y - 1) / 100 + (y - 1) / 400 + 1

def daysBeforeYear (y : ℕ) : ℕ :=
  365 * y + leapsBefore y

/-- Absolute second count of a timestamp (proleptic Gregorian calendar). -/
def dtToSeconds (d : DateTime) : ℕ :=
  ((daysBeforeYear d.year + daysBeforeMonth d.year d.month + (d.day - 1)) * 24 + d.hour) *
    3600 + d.minute * 60 + d.second

def natOfDigits (cs : List Char) : Option ℕ :=
  if cs ≠ [] ∧ cs.all Char.isDigit then some (digitsVal cs) else none

/-- Source `datetime.strptime(s, "%Y-%m-%d %H:%M:%S")` with range validation. -/
def parseDateTime (s : String) : Option DateTime :=
  match splitChars ' ' s.toList with
  | [d, t] =>
    match splitChars '-' d, splitChars ':' t with
    | [ys, ms, ds], [hs, mins, secs] =>
      match natOfDigits ys, natOfDigits ms, natOfDigits ds,
            natOfDigits hs, natOfDigits mins, natOfDigits secs with
      | some y, some mo, some da, some h, some mi, some se =>
        if 1 ≤ mo ∧ mo ≤ 12 ∧ 1 ≤ da ∧ da ≤ daysInMonth y mo ∧ h < 24 ∧ mi < 60 ∧ se < 60
        then some ⟨y, mo, da, h, mi, se⟩ else none
      | _, _, _, _, _, _ => none
    | _, _ => none
  | _ => none

/-! ### `TaxiDataCleaner` (`data_cleaner.py`)

A CSV row is a `Record`.  The two datetime columns are accessed with
`record[...]` (present in every CSV row, so modelled as plain `String`);
all other columns are accessed with `record.get(...)` and are modelled as
`Option String` (`none` = column absent).  The `validity_flag` and
`outlier_flag` entries start absent and are written by the stages.
Each stage is modelled as a function from the record list to the pair
(surviving records, removed records in their final mutated state); the
mutable statistics counters are derived from these lists. -/

structure Record where
  id : Option String := none
  vendor_id : Option String := none
  pickup_datetime : String := ""
  dropoff_datetime : String := ""
  passenger_count : Option String := none
  pickup_longitude : Option String := none
  pickup_latitude : Option String := none
  dropoff_longitude : Option String := none
  dropoff_latitude : Option String := none
  store_and_fwd_flag : Option String := none
  trip_duration : Option String := none
  row_number : ℕ := 0
  calculated_duration : Option String := none
  validity_flag : Option String := none
  outlier_flag : Option String := none
deriving DecidableEq

/-- The composite dedup key
`pickup_datetime|dropoff_datetime|pickup_longitude|pickup_latitude|trip_duration`. -/
def dedupKey (r : Record) : String :=
  String.intercalate "|" [r.pickup_datetime, r.dropoff_datetime,
    r.pickup_longitude.getD "", r.pickup_latitude.getD "", r.trip_duration.getD ""]

def removeDuplicatesGo (seen : List String) : List Record → List Record × List Record
  | [] => ([], [])
  | r :: rs =>
    if dedupKey r ∈ seen then
      let p := removeDuplicatesGo seen rs
      (p.1, r :: p.2)
    else
      let p := removeDuplicatesGo (dedupKey r :: seen) rs
      (r :: p.1, p.2)

/-- Source `TaxiDataCleaner._remove_duplicates`: first occurrence of a key survives,
later occurrences are removed (and only counted — no flag is written). -/
def _remove_duplicates (data : List Record) : List Record × List Record :=
  removeDuplicatesGo [] data

/-- Per-record missing-value defaulting of `_fix_missing_values`: absent or
empty passenger count → "1", flag → "N", vendor id → "1"; the boolean
reports whether at least one substitution happened (the source increments its
counter once per record with `fixed = True`). -/
def fixRecord (r : Record) : Record × Bool :=
  let pcFix := r.passenger_count = none ∨ r.passenger_count = some ""
  let flFix := r.store_and_fwd_flag = none ∨ r.store_and_fwd_flag = some ""
  let vdFix := r.vendor_id = none ∨ r.vendor_id = some ""
  ({ r with
      passenger_count := if pcFix then some "1" else r.passenger_count,
      store_and_fwd_flag := if flFix then some "N" else r.store_and_fwd_flag,
      vendor_id := if vdFix then some "1" else r.vendor_id },
   decide pcFix || decide flFix || decide vdFix)

/-- Source `TaxiDataCleaner._fix_missing_values`: returns the (unshortened) record
list and the number of records that had a value fixed. -/
def _fix_missing_values (data : List Record) : List Record × ℕ :=
  (data.map (fun r => (fixRecord r).1), data.countP (fun r => (fixRecord r).2))

/-- A validation pass: `keep r = some r2` keeps the (possibly updated) record,
`none` removes it after writing the failure flag. -/
def splitStage (keep : Record → Option Record) (flag : Record → Record) :
    List Record → List Record × List Record
  | [] => ([], [])
  | r :: rs =>
    let p := splitStage keep flag rs
    match keep r with
    | some r2 => (r2 :: p.1, p.2)
    | none => (p.1, flag r :: p.2)

/-- Source `float(record.get(field, 0))`: an absent field parses as `0.0`, a present
field goes through `float()`. -/
def coordVal (f : Option String) : Option ℚ :=
  match f with
  | none => some 0
  | some s => parseRat s

/-- The coordinate test of `_validate_coordinates`: `none` models the
`float()` exception path. -/
def coordsValid (r : Record) : Option Bool :=
  match coordVal r.pickup_longitude, coordVal r.pickup_latitude,
        coordVal r.dropoff_longitude, coordVal r.dropoff_latitude with
  | some plon, some plat, some dlon, some dlat =>
    some (decide ((40.4774 : ℚ) ≤ plat ∧ plat ≤ (40.9176 : ℚ) ∧
        (-74.2591 : ℚ) ≤ plon ∧ plon ≤ (-73.7004 : ℚ)) &&
      decide ((40.4774 : ℚ) ≤ dlat ∧ dlat ≤ (40.9176 : ℚ) ∧
        (-74.2591 : ℚ) ≤ dlon ∧ dlon ≤ (-73.7004 : ℚ)))
  | _, _, _, _ => none

/-- Source `TaxiDataCleaner._validate_coordinates`. -/
def _validate_coordinates (data : List Record) : List Record × List Record :=
  splitStage
    (fun r => match coordsValid r with
      | some true => some r
      | _ => none)
    (fun r => { r with validity_flag := some "INVALID_COORDINATES" })
    data

/-- Source `TaxiDataCleaner._validate_datetime`: both timestamps must parse, dropoff
strictly after pickup; the elapsed seconds are recorded. -/
def _validate_datetime (data : List Record) : List Record × List Record :=
  splitStage
    (fun r => match parseDateTime r.pickup_datetime, parseDateTime r.dropoff_datetime with
      | some pu, some dr =>
        if dtToSeconds pu < dtToSeconds dr then
          some { r with
            calculated_duration := some (toString (dtToSeconds dr - dtToSeconds pu)) }
        else none
      | _, _ => none)
    (fun r => { r with validity_flag := some "INVALID_DATETIME" })
    data

/-- Source `int(record.get(field, d))`. -/
def intField (f : Option String) (d : ℤ) : Option ℤ :=
  match f with
  | none => some d
  | some s => parseInt s

/-- Source `TaxiDataCleaner._validate_trip_duration`: duration in [60, 3600] and
passenger count in [1, 8]. -/
def _validate_trip_duration (data : List Record) : List Record × List Record :=
  splitStage
    (fun r => match intField r.trip_duration 0, intField r.passenger_count 1 with
      | some dur, some pc =>
        if 60 ≤ dur ∧ dur ≤ 3600 ∧ 1 ≤ pc ∧ pc ≤ 8 then some r else none
      | _, _ => none)
    (fun r => { r with validity_flag := some "INVALID_DURATION_OR_PASSENGERS" })
    data

/-- Source `float(record.get('trip_duration', 0))` with the `except` fallback to 0. -/
def durOf (r : Record) : ℚ :=
  match r.trip_duration with
  | none => 0
  | some s => (parseRat s).getD 0

/-- Source `TaxiDataCleaner._detect_outliers`: above 100000 records a sample of (at
most) 50000 durations — drawn by the `sample` parameter standing for
`random.sample` — fixes the IQR bounds (multiplier 2.0) that are applied to
the whole set; below the threshold the bounds come from the full set.  Flagged
records are retained.  `none` models the `KeyError` on the empty statistics
dictionary, reachable only if the sampler returns fewer than 4 values. -/
def _detect_outliers (sample : List ℚ → ℕ → List ℚ) (data : List Record) :
    Option (List Record) :=
  let durations := data.map durOf
  if durations.length > 100000 then
    let sampled := sample durations (min 50000 durations.length)
    match (detect_outliers_iqr sampled 2).2 with
    | none => none
    | some st =>
      let iqr := st.q3 - st.q1
      let lb := st.q1 - 2 * iqr
      let ub := st.q3 + 2 * iqr
      some ((data.zip durations).map (fun rd =>
        { rd.1 with
          outlier_flag := some (if rd.2 < lb ∨ rd.2 > ub then "DURATION_OUTLIER"
            else "NORMAL") }))
  else
    some (data.enum.map (fun ir =>
      { ir.2 with
        outlier_flag := some (if ir.1 ∈ (detect_outliers_iqr durations 2).1
          then "DURATION_OUTLIER" else "NORMAL") }))

/-- The `self.stats` counter bundle of `TaxiDataCleaner`. -/
structure CleanStats where
  duplicates_removed : ℕ
  missing_values_fixed : ℕ
  coordinate_errors : ℕ
  datetime_errors : ℕ
  duration_errors : ℕ
  outliers_detected : ℕ
deriving DecidableEq

/-- Source `TaxiDataCleaner.clean_dataset` on an in-memory record list (file I/O and
report formatting omitted): returns the surviving records, the removed records
in their final mutated state (for the report-flag claims), and the statistics
counters. -/
def clean_dataset (sample : List ℚ → ℕ → List ℚ) (raw : List Record) :
    Option (List Record × List Record × CleanStats) :=
  let d1 := _remove_duplicates raw
  let d2 := _fix_missing_values d1.1
  let d3 := _validate_coordinates d2.1
  let d4 := _validate_datetime d3.1
  let d5 := _validate_trip_duration d4.1
  match _detect_outliers sample d5.1 with
  | none => none
  | some d6 =>
    some (d6, d1.2 ++ d3.2 ++ d4.2 ++ d5.2,
      ⟨d1.2.length, d2.2, d3.2.length, d4.2.length, d5.2.length,
        d6.countP (fun r => decide (r.outlier_flag = some "DURATION_OUTLIER"))⟩)

/-! ### `TaxiFeatureEngineer` (`feature_engineering.py`)

The feature pipeline re-reads the cleaned CSV with `csv.DictReader`, so its
records are a fresh dictionary type; only the columns that the stages read are
modelled.  Raw columns are `Option String` (every `record[...]` access in this
file has `KeyError` caught, so an absent column takes the per-stage fallback
branch).  Derived numeric features are stored as exact rationals: the source
formats them to fixed-precision decimal strings and parses them back, which is
presentation only.  The haversine call `self.algorithms.calculate_distance`
computes in float trigonometry and is modelled as the function parameter
`dist`; its mathematical properties are proved separately on the real-valued
`calculate_distance`. -/

structure FRecord where
  pickup_datetime : Option String := none
  pickup_longitude : Option String := none
  pickup_latitude : Option String := none
  dropoff_longitude : Option String := none
  dropoff_latitude : Option String := none
  trip_duration : Option String := none
  trip_distance_km : Option ℚ := none
  trip_speed_kmh : Option ℚ := none
  pickup_hour : Option ℕ := none
  time_of_day : Option String := none
  day_of_week : Option String := none
  is_weekend : Option Bool := none
  pickup_month : Option ℕ := none
  is_rush_hour : Option Bool := none
  distance_per_minute : Option ℚ := none
  estimated_idle_time : Option ℚ := none
  efficiency_score : Option ℚ := none
  trip_complexity : Option ℚ := none
  pickup_borough : Option String := none
  dropoff_borough : Option String := none
  trip_type : Option String := none
  trip_patterns : Option String := none
deriving DecidableEq

/-- Source `TaxiFeatureEngineer._calculate_trip_distance`: haversine distance of the
four parsed coordinates, `0` on any parse failure. -/
def _calculate_trip_distance (dist : ℚ → ℚ → ℚ → ℚ → ℚ) (data : List FRecord) :
    List FRecord :=
  data.map (fun r =>
    match r.pickup_latitude.bind parseRat, r.pickup_longitude.bind parseRat,
          r.dropoff_latitude.bind parseRat, r.dropoff_longitude.bind parseRat with
    | some plat, some plon, some dlat, some dlon =>
      { r with trip_distance_km := some (dist plat plon dlat dlon) }
    | _, _, _, _ => { r with trip_distance_km := some 0 })

/-- Source `float(record.get('trip_duration', 0))` on a feature record, `none` for
the exception path. -/
def fDur (r : FRecord) : Option ℚ :=
  match r.trip_duration with
  | none => some 0
  | some s => parseRat s

/-- Source `TaxiFeatureEngineer._calculate_trip_speed`: distance ÷ (duration/3600),
`0` for zero duration or a parse failure. -/
def _calculate_trip_speed (data : List FRecord) : List FRecord :=
  data.map (fun r =>
    match fDur r with
    | some d =>
      if 0 < d then
        { r with trip_speed_kmh := some ((r.trip_distance_km.getD 0) / (d / 3600)) }
      else { r with trip_speed_kmh := some 0 }
    | none => { r with trip_speed_kmh := some 0 })

def dayNames : List String :=
  ["Monday", "Tuesday", "Wednesday", "Thursday", "Friday", "Saturday", "Sunday"]

/-- Source `pickup_dt.strftime('%A')`: weekday name from the day count. -/
def dayNameOf (d : DateTime) : String :=
  dayNames.getD ((dtToSeconds d / 86400 + 5) % 7) "Monday"

/-- Source `TaxiFeatureEngineer._extract_temporal_features`. -/
def _extract_temporal_features (data : List FRecord) : List FRecord :=
  data.map (fun r =>
    match r.pickup_datetime.bind parseDateTime with
    | some dt =>
      let hour := dt.hour
      let tod := if 5 ≤ hour ∧ hour < 12 then "Morning"
        else if 12 ≤ hour ∧ hour < 17 then "Afternoon"
        else if 17 ≤ hour ∧ hour < 21 then "Evening"
        else "Night"
      let dow := dayNameOf dt
      let wknd := dow = "Saturday" ∨ dow = "Sunday"
      let rush := ((7 ≤ hour ∧ hour ≤ 9) ∨ (17 ≤ hour ∧ hour ≤ 19)) ∧ ¬ wknd
      { r with
        pickup_hour := some hour,
        time_of_day := some tod,
        day_of_week := some dow,
        is_weekend := some (decide wknd),
        pickup_month := some dt.month,
        is_rush_hour := some (decide rush) }
    | none =>
      { r with
        pickup_hour := some 0,
        time_of_day := some "Unknown",
        day_of_week := some "Unknown",
        is_weekend := some false,
        pickup_month := some 1,
        is_rush_hour := some false })

/-- The per-record body of `_calculate_efficiency_metrics`. -/
def effRecord (r : FRecord) : FRecord :=
  match fDur r with
  | some dur =>
    let distance := r.trip_distance_km.getD 0
    let speed := r.trip_speed_kmh.getD 0
    let dpm := if 0 < dur / 60 then distance / (dur / 60) else 0
    let idle := if 0 < speed then max 0 (dur - distance / speed * 3600) else dur
    let eff := if 0 < speed then min 100 (speed / 40 * 100) else 0
    let cplx := if 0 < distance ∧ 0 < dur then dur / (distance / 20 * 3600) else 1
    { r with
      distance_per_minute := some dpm,
      estimated_idle_time := some idle,
      efficiency_score := some eff,
      trip_complexity := some cplx }
  | none =>
    { r with
      distance_per_minute := some 0,
      estimated_idle_time := some 0,
      efficiency_score := some 0,
      trip_complexity := some 1 }

/-- Source `TaxiFeatureEngineer._calculate_efficiency_metrics`. -/
def _calculate_efficiency_metrics (data : List FRecord) : List FRecord :=
  data.map effRecord

def boroughCenters : List (String × ℚ × ℚ) :=
  [("Manhattan", 40.7831, -73.9712), ("Brooklyn", 40.6782, -73.9442),
   ("Queens", 40.7282, -73.7949), ("Bronx", 40.8448, -73.8648),
   ("Staten Island", 40.5795, -74.1502)]

/-- Source `TaxiFeatureEngineer._find_closest_borough`: iterate the borough centres in
order, strictly improving on the current minimum (initially infinite, default
"Manhattan"). -/
def _find_closest_borough (dist : ℚ → ℚ → ℚ → ℚ → ℚ) (lat lon : ℚ) : String :=
  (boroughCenters.foldl
    (fun (acc : Option ℚ × String) b =>
      let d := dist lat lon b.2.1 b.2.2
      match acc.1 with
      | none => (some d, b.1)
      | some m => if d < m then (some d, b.1) else acc)
    (none, "Manhattan")).2

/-- Source `TaxiFeatureEngineer._classify_trip_zones`. -/
def _classify_trip_zones (dist : ℚ → ℚ → ℚ → ℚ → ℚ) (data : List FRecord) :
    List FRecord :=
  data.map (fun r =>
    match r.pickup_latitude.bind parseRat, r.pickup_longitude.bind parseRat,
          r.dropoff_latitude.bind parseRat, r.dropoff_longitude.bind parseRat with
    | some plat, some plon, some dlat, some dlon =>
      let pb := _find_closest_borough dist plat plon
      let db := _find_closest_borough dist dlat dlon
      { r with
        pickup_borough := some pb,
        dropoff_borough := some db,
        trip_type := some (if pb = db then "Intra-borough" else "Inter-borough") }
    | _, _, _, _ =>
      { r with
        pickup_borough := some "Unknown",
        dropoff_borough := some "Unknown",
        trip_type := some "Unknown" })

/-- Source `TaxiFeatureEngineer._detect_trip_patterns`: 10th/90th percentiles of
speed, distance and duration over the whole enriched set, then per-record
tags.  The extraction loop appends speed and distance before the duration
parse can raise, so an unparsable duration leaves the other two lists longer
(modelled by the `filterMap`). -/
def _detect_trip_patterns (data : List FRecord) : List FRecord :=
  let speeds := data.map (fun r => r.trip_speed_kmh.getD 0)
  let distances := data.map (fun r => r.trip_distance_km.getD 0)
  let durations := data.filterMap fDur
  let sp := calculate_percentiles speeds [10, 90]
  let dp := calculate_percentiles distances [10, 90]
  let up := calculate_percentiles durations [10, 90]
  data.map (fun r =>
    match fDur r with
    | none => { r with trip_patterns := some "Unknown" }
    | some duration =>
      let speed := r.trip_speed_kmh.getD 0
      let distance := r.trip_distance_km.getD 0
      let pats :=
        (if speed < percLookup sp 10 then ["Slow"]
         else if percLookup sp 90 < speed then ["Fast"] else []) ++
        (if distance < percLookup dp 10 then ["Short"]
         else if percLookup dp 90 < distance then ["Long"] else []) ++
        (if duration < percLookup up 10 then ["Quick"]
         else if percLookup up 90 < duration then ["Extended"] else []) ++
        (if speed < 5 then ["Traffic"] else []) ++
        (if distance < 1/2 then ["Local"] else []) ++
        (if 1800 < duration then ["Journey"] else [])
      { r with
        trip_patterns := some (if pats = [] then "Normal"
          else String.intercalate ";" pats) })

/-- Source `TaxiFeatureEngineer.engineer_features` on an in-memory record list
(file I/O and report formatting omitted). -/
def engineer_features (dist : ℚ → ℚ → ℚ → ℚ → ℚ) (data : List FRecord) :
    List FRecord :=
  _detect_trip_patterns (_classify_trip_zones dist (_calculate_efficiency_metrics
    (_extract_temporal_features (_calculate_trip_speed
      (_calculate_trip_distance dist data)))))

/-! ## Claim theorems -/

/-- Claim **C3**: for every input list, key and reverse flag, `quick_sort` returns a
permutation of the input, ordered by the key (ascending, or descending when
`reverse` is set), and stable: the sublist of items carrying any fixed key
value is exactly the corresponding sublist of the input (same items, same
relative order); lists of 0 or 1 elements are returned unchanged. -/
theorem c3_quick_sort_stable_sorted_perm {α : Type} (k : α → ℚ) (rev : Bool)
    (arr : List α) :
    List.Perm (quick_sort k rev arr) arr ∧
    (quick_sort k rev arr).Sorted (keyRel k rev) ∧
    (∀ c : ℚ, (quick_sort k rev arr).filter (qsEq k c) = arr.filter (qsEq k c)) ∧
    quick_sort k rev ([] : List α) = [] ∧
    (∀ a : α, quick_sort k rev [a] = [a]) := by
  refine ⟨quick_sort_is_perm k rev arr, quick_sort_sorted k rev arr,
    quick_sort_stable k rev arr, ?_, ?_⟩
  · rw [quick_sort]
    simp
  · intro a
    rw [quick_sort]
    simp

/-- Claim **C6**: the haversine great-circle distance is symmetric, zero on
coincident points, and never negative. -/
theorem c6_distance_properties (lat1 lon1 lat2 lon2 : ℝ) :
    calculate_distance lat1 lon1 lat2 lon2 = calculate_distance lat2 lon2 lat1 lon1 ∧
    calculate_distance lat1 lon1 lat1 lon1 = 0 ∧
    0 ≤ calculate_distance lat1 lon1 lat2 lon2 := by
  have hsq : ∀ x y : ℝ, Real.sin ((x - y) / 2) ^ 2 = Real.sin ((y - x) / 2) ^ 2 := by
    intro x y
    rw [show (x - y) / 2 = -((y - x) / 2) by ring, Real.sin_neg, neg_sq]
  refine ⟨?_, ?_, ?_⟩
  · unfold calculate_distance
    dsimp only
    rw [hsq (radians lat2) (radians lat1), hsq (radians lon2) (radians lon1),
      mul_comm (Real.cos (radians lat1)) (Real.cos (radians lat2))]
  · unfold calculate_distance
    dsimp only
    rw [sub_self, sub_self]
    norm_num
  · unfold calculate_distance
    dsimp only
    have h1 : 0 ≤ Real.arcsin (Real.sqrt (Real.sin ((radians lat2 - radians lat1) / 2) ^ 2 +
        Real.cos (radians lat1) * Real.cos (radians lat2) *
          Real.sin ((radians lon2 - radians lon1) / 2) ^ 2)) :=
      Real.arcsin_nonneg.mpr (Real.sqrt_nonneg _)
    positivity

/-- The library's percentile value for a single requested percentile `p`:
`calculate_percentiles(values, [p])[p]`. -/
def percentileOf (values : List ℚ) (p : ℤ) : ℚ :=
  percLookup (calculate_percentiles values [p]) p

lemma percentileOf_eq (values : List ℚ) (p : ℤ) (hne : values ≠ [])
    (h0 : 0 ≤ p) (h1 : p ≤ 100) :
    percentileOf values p = percEntry (sortedValuesOf values) p := by
  unfold percentileOf calculate_percentiles percLookup
  rw [if_neg hne]
  simp [List.filter, h0, h1, List.lookup]

unseal Rat.mul Rat.add Rat.sub Rat.inv Rat.ofScientific in
/-- Claim **C2**: for every non-empty value list, `calculate_percentiles` returns the
minimum at `p = 0` and the maximum at `p = 100`; for `0 < p < 100` it returns
the specification's linear interpolation between the floor- and
ceiling-indexed elements of the ascending-sorted values at fractional rank
`(p/100)*(n-1)`; in particular the 50th and 25th percentiles of `[1..10]` are
`5.5` and `3.25`; and the empty list yields the `0.0` sentinel for every
requested percentile. -/
theorem c2_percentiles_spec (values : List ℚ) (p : ℤ)
    (hne : values ≠ []) (hp0 : 0 < p) (hp1 : p < 100) :
    (percentileOf values 0 ∈ values ∧ ∀ x ∈ values, percentileOf values 0 ≤ x) ∧
    (percentileOf values 100 ∈ values ∧ ∀ x ∈ values, x ≤ percentileOf values 100) ∧
    percentileOf values p = specInterpolation values p ∧
    percentileOf [1, 2, 3, 4, 5, 6, 7, 8, 9, 10] 50 = 11 / 2 ∧
    percentileOf [1, 2, 3, 4, 5, 6, 7, 8, 9, 10] 25 = 13 / 4 ∧
    (∀ q : ℤ, calculate_percentiles [] [q] = [(q, 0)]) := by
  have hsvne : sortedValuesOf values ≠ [] := by
    intro hcon
    have := sortedValuesOf_length values
    rw [hcon] at this
    simp only [List.length_nil] at this
    exact hne (List.length_eq_zero.mp this.symm)
  have hmem : ∀ x, x ∈ sortedValuesOf values ↔ x ∈ values := fun x =>
    (sortedValuesOf_perm values).mem_iff
  refine ⟨?_, ?_, ?_, ?_, ?_, ?_⟩
  · rw [percentileOf_eq values 0 hne le_rfl (by norm_num)]
    rw [show percEntry (sortedValuesOf values) 0 = (sortedValuesOf values).getD 0 0 by
      rw [percEntry, if_pos rfl]]
    obtain ⟨h1, h2⟩ := sorted_head_min (sortedValuesOf_sorted values) hsvne
    exact ⟨(hmem _).mp h1, fun x hx => h2 x ((hmem x).mpr hx)⟩
  · rw [percentileOf_eq values 100 hne (by norm_num) le_rfl]
    rw [show percEntry (sortedValuesOf values) 100 =
        (sortedValuesOf values).getD ((sortedValuesOf values).length - 1) 0 by
      rw [percEntry, if_neg (by norm_num), if_pos rfl]]
    obtain ⟨h1, h2⟩ := sorted_last_max (sortedValuesOf_sorted values) hsvne
    exact ⟨(hmem _).mp h1, fun x hx => h2 x ((hmem x).mpr hx)⟩
  · rw [percentileOf_eq values p hne (le_of_lt hp0) (le_of_lt hp1)]
    exact percEntry_eq_specInterpolation values p hne hp0 hp1
  · rw [percentileOf_eq [1, 2, 3, 4, 5, 6, 7, 8, 9, 10] 50 (by decide)
      (by norm_num) (by norm_num)]
    rw [percEntry_eq_specInterpolation [1, 2, 3, 4, 5, 6, 7, 8, 9, 10] 50 (by decide)
      (by norm_num) (by norm_num)]
    decide
  · rw [percentileOf_eq [1, 2, 3, 4, 5, 6, 7, 8, 9, 10] 25 (by decide)
      (by norm_num) (by norm_num)]
    rw [percEntry_eq_specInterpolation [1, 2, 3, 4, 5, 6, 7, 8, 9, 10] 25 (by decide)
      (by norm_num) (by norm_num)]
    decide
  · intro q
    unfold calculate_percentiles
    rw [if_pos rfl]
    rfl

/-- Witness for **C2** at `values = [1..10]`, `p = 50`. -/
theorem c2_percentiles_spec_witness :
    percentileOf [1, 2, 3, 4, 5, 6, 7, 8, 9, 10] 50 = 11 / 2 ∧
    percentileOf [1, 2, 3, 4, 5, 6, 7, 8, 9, 10] 25 = 13 / 4 :=
  ⟨(c2_percentiles_spec [1, 2, 3, 4, 5, 6, 7, 8, 9, 10] 50 (by decide) (by decide)
      (by decide)).2.2.2.1,
   (c2_percentiles_spec [1, 2, 3, 4, 5, 6, 7, 8, 9, 10] 50 (by decide) (by decide)
      (by decide)).2.2.2.2.1⟩

/-- Claim **C4, counterexample**: the claim asserts `find_top_k` works for *every*
`k ≤ len(items)`, but for `k = 0` on non-empty data the heap branch reads
`heap[0]` from an empty heap and raises `IndexError` (modelled as `none`). -/
theorem c4_top_k_counterexample :
    find_top_k (fun x : ℚ => x) [5] 0 = none := by
  rfl

/-- Claim **C4, amended**: for every `k ≥ 1`, `find_top_k` with `k ≤ len(data)`
returns a list whose key values are exactly the `k` largest key values of
`data` in descending order (the `k`-prefix of the descending sort of the
keys), and with `k ≥ len(data)` it returns the full descending stable sort. -/
theorem c4_top_k_amended {α : Type} (k : α → ℚ) (data : List α) (kk : ℕ)
    (hkk : 1 ≤ kk) :
    (kk ≤ data.length →
      (find_top_k k data kk).map (List.map k) =
        some ((List.insertionSort (· ≥ ·) (data.map k)).take kk)) ∧
    (data.length ≤ kk → find_top_k k data kk = some (quick_sort k true data)) := by
  constructor
  · intro hk
    exact find_top_k_keys k data kk hkk hk
  · intro hge
    unfold find_top_k
    rw [if_pos hge]

/-- Witness for **C4 amended** at `data = [3, 1, 2]`, `k = 2`. -/
theorem c4_top_k_amended_witness :
    (find_top_k (fun x : ℚ => x) [3, 1, 2] 2).map (List.map (fun x : ℚ => x)) =
      some ((List.insertionSort (· ≥ ·)
        (([3, 1, 2] : List ℚ).map (fun x : ℚ => x))).take 2) :=
  (c4_top_k_amended (fun x : ℚ => x) [3, 1, 2] 2 (by decide)).1 (by decide)

lemma percLookup_pair (values : List ℚ) (hne : values ≠ []) :
    percLookup (calculate_percentiles values [25, 75]) 25 =
      percEntry (sortedValuesOf values) 25 ∧
    percLookup (calculate_percentiles values [25, 75]) 75 =
      percEntry (sortedValuesOf values) 75 := by
  unfold calculate_percentiles percLookup
  rw [if_neg hne]
  simp [List.filter, List.lookup]

lemma mem_enum_filter_map (l : List ℚ) (i : ℕ) (P : ℚ → Bool) :
    i ∈ (l.enum.filter (fun iv => P iv.2)).map Prod.fst ↔
      i < l.length ∧ P (l.getD i 0) := by
  simp only [List.mem_map, List.mem_filter]
  constructor
  · rintro ⟨⟨j, a⟩, ⟨hmem, hp⟩, rfl⟩
    have hg := List.mk_mem_enum_iff_getElem?.mp hmem
    have hlt : j < l.length := (List.getElem?_eq_some.mp hg).1
    refine ⟨hlt, ?_⟩
    rw [List.getD_eq_getElem?_getD, hg]
    exact hp
  · rintro ⟨hi, hp⟩
    refine ⟨(i, l.getD i 0), ⟨List.mk_mem_enum_iff_getElem?.mpr ?_, hp⟩, rfl⟩
    rw [List.getElem?_eq_getElem hi, List.getD_eq_getElem?_getD,
      List.getElem?_eq_getElem hi]
    rfl

/-- Claim **C5**: with at least 4 values, `detect_outliers_iqr` returns stats with
`Q1 = Percentile(25)`, `Q3 = Percentile(75)`, `IQR = Q3 - Q1`, bounds
`[Q1 - m*IQR, Q3 + m*IQR]`, and an index list containing exactly the indices
whose value lies strictly outside the bounds; with fewer than 4 values it
returns no outliers and no stats. -/
theorem c5_iqr_outliers (values : List ℚ) (m : ℚ) :
    (values.length < 4 → detect_outliers_iqr values m = ([], none)) ∧
    (4 ≤ values.length →
      ∃ stats : IqrStats,
        (detect_outliers_iqr values m).2 = some stats ∧
        stats.q1 = percentileOf values 25 ∧
        stats.q3 = percentileOf values 75 ∧
        stats.iqr = stats.q3 - stats.q1 ∧
        stats.lower_bound = stats.q1 - m * stats.iqr ∧
        stats.upper_bound = stats.q3 + m * stats.iqr ∧
        stats.outlier_count = (detect_outliers_iqr values m).1.length ∧
        (∀ i : ℕ, i ∈ (detect_outliers_iqr values m).1 ↔
          i < values.length ∧
            (values.getD i 0 < stats.lower_bound ∨
              stats.upper_bound < values.getD i 0))) := by
  constructor
  · intro h
    unfold detect_outliers_iqr
    rw [if_pos h]
  · intro h4
    have hne : values ≠ [] := by
      intro hc
      rw [hc] at h4
      simp at h4
    obtain ⟨h25, h75⟩ := percLookup_pair values hne
    unfold detect_outliers_iqr
    rw [if_neg (by omega)]
    dsimp only
    refine ⟨_, rfl, ?_, ?_, rfl, rfl, rfl, rfl, ?_⟩
    · rw [h25, percentileOf_eq values 25 hne (by norm_num) (by norm_num)]
    · rw [h75, percentileOf_eq values 75 hne (by norm_num) (by norm_num)]
    · intro i
      rw [mem_enum_filter_map values i
        (fun v => decide (v < percLookup (calculate_percentiles values [25, 75]) 25 -
            m * (percLookup (calculate_percentiles values [25, 75]) 75 -
              percLookup (calculate_percentiles values [25, 75]) 25)) ||
          decide (percLookup (calculate_percentiles values [25, 75]) 75 +
            m * (percLookup (calculate_percentiles values [25, 75]) 75 -
              percLookup (calculate_percentiles values [25, 75]) 25) < v))]
      simp only [Bool.or_eq_true, decide_eq_true_eq]

/-- Witness for **C5**: the short-input clause at `[1, 2, 3]` and the stats
clause at `[1, 2, 3, 100]` with multiplier `3/2`. -/
theorem c5_iqr_outliers_witness :
    detect_outliers_iqr [1, 2, 3] 2 = ([], none) ∧
    (∃ stats : IqrStats,
      (detect_outliers_iqr [1, 2, 3, 100] (3 / 2)).2 = some stats ∧
      stats.q1 = percentileOf [1, 2, 3, 100] 25 ∧
      stats.q3 = percentileOf [1, 2, 3, 100] 75 ∧
      stats.iqr = stats.q3 - stats.q1 ∧
      stats.lower_bound = stats.q1 - (3 / 2) * stats.iqr ∧
      stats.upper_bound = stats.q3 + (3 / 2) * stats.iqr ∧
      stats.outlier_count = (detect_outliers_iqr [1, 2, 3, 100] (3 / 2)).1.length ∧
      (∀ i : ℕ, i ∈ (detect_outliers_iqr [1, 2, 3, 100] (3 / 2)).1 ↔
        i < ([1, 2, 3, 100] : List ℚ).length ∧
          (([1, 2, 3, 100] : List ℚ).getD i 0 < stats.lower_bound ∨
            stats.upper_bound < ([1, 2, 3, 100] : List ℚ).getD i 0))) :=
  ⟨(c5_iqr_outliers [1, 2, 3] 2).1 (by decide),
   (c5_iqr_outliers [1, 2, 3, 100] (3 / 2)).2 (by decide)⟩

lemma removeDuplicatesGo_length (seen : List String) (l : List Record) :
    (removeDuplicatesGo seen l).1.length + (removeDuplicatesGo seen l).2.length =
      l.length := by
  induction l generalizing seen with
  | nil => rfl
  | cons r rs ih =>
    rw [removeDuplicatesGo]
    by_cases hd : dedupKey r ∈ seen
    · rw [if_pos hd]
      dsimp only
      rw [List.length_cons, List.length_cons]
      have := ih seen
      omega
    · rw [if_neg hd]
      dsimp only
      rw [List.length_cons, List.length_cons]
      have := ih (dedupKey r :: seen)
      omega

lemma splitStage_length (keep : Record → Option Record) (flag : Record → Record)
    (l : List Record) :
    (splitStage keep flag l).1.length + (splitStage keep flag l).2.length =
      l.length := by
  induction l with
  | nil => rfl
  | cons r rs ih =>
    rw [splitStage]
    rcases hk : keep r with _ | r2 <;> dsimp only <;>
      simp only [List.length_cons] <;> omega

lemma fix_missing_length (data : List Record) :
    (_fix_missing_values data).1.length = data.length := by
  unfold _fix_missing_values
  exact List.length_map _ _

lemma detect_outliers_length (sample : List ℚ → ℕ → List ℚ) (data : List Record)
    (out : List Record) (h : _detect_outliers sample data = some out) :
    out.length = data.length := by
  unfold _detect_outliers at h
  dsimp only at h
  split at h
  · split at h
    · exact absurd h (by simp)
    · injection h with h
      subst h
      rw [List.length_map, List.length_zip, List.length_map, min_self]
  · injection h with h
    subst h
    rw [List.length_map, List.enum_length]

lemma remove_duplicates_length (data : List Record) :
    (_remove_duplicates data).1.length + (_remove_duplicates data).2.length =
      data.length := by
  unfold _remove_duplicates
  exact removeDuplicatesGo_length [] data

lemma validate_coordinates_length (data : List Record) :
    (_validate_coordinates data).1.length + (_validate_coordinates data).2.length =
      data.length := by
  unfold _validate_coordinates
  exact splitStage_length _ _ data

lemma validate_datetime_length (data : List Record) :
    (_validate_datetime data).1.length + (_validate_datetime data).2.length =
      data.length := by
  unfold _validate_datetime
  exact splitStage_length _ _ data

lemma validate_trip_duration_length (data : List Record) :
    (_validate_trip_duration data).1.length + (_validate_trip_duration data).2.length =
      data.length := by
  unfold _validate_trip_duration
  exact splitStage_length _ _ data

lemma clean_dataset_survivors_le (sample : List ℚ → ℕ → List ℚ) (raw : List Record)
    (out : List Record × List Record × CleanStats)
    (h : clean_dataset sample raw = some out) :
    out.1.length ≤ raw.length := by
  unfold clean_dataset at h
  dsimp only at h
  rcases hmo : _detect_outliers sample
      ((_validate_trip_duration (_validate_datetime (_validate_coordinates
        (_fix_missing_values (_remove_duplicates raw).1).1).1).1).1) with _ | d6
  · rw [hmo] at h
    exact absurd h (by simp)
  · rw [hmo] at h
    dsimp only at h
    injection h with h
    subst h
    dsimp only
    rw [detect_outliers_length sample _ d6 hmo]
    have h5 := validate_trip_duration_length ((_validate_datetime (_validate_coordinates
      (_fix_missing_values (_remove_duplicates raw).1).1).1).1)
    have h4 := validate_datetime_length ((_validate_coordinates
      (_fix_missing_values (_remove_duplicates raw).1).1).1)
    have h3 := validate_coordinates_length ((_fix_missing_values (_remove_duplicates raw).1).1)
    have h2 := fix_missing_length (_remove_duplicates raw).1
    have h1 := remove_duplicates_length raw
    omega

lemma engineer_features_length (dist : ℚ → ℚ → ℚ → ℚ → ℚ) (data : List FRecord) :
    (engineer_features dist data).length = data.length := by
  unfold engineer_features _detect_trip_patterns _classify_trip_zones
    _calculate_efficiency_metrics _extract_temporal_features _calculate_trip_speed
    _calculate_trip_distance
  simp only [List.length_map]

/-- Claim **C1**: whenever the cleaning pipeline returns (it can only fail through
the sampler pathology modelled by `none`), the surviving record count is at
most the input count, and the feature-engineering pipeline always preserves
the record count exactly (every stage is a per-record map). -/
theorem c1_pipeline_lengths (sample : List ℚ → ℕ → List ℚ) (raw : List Record)
    (dist : ℚ → ℚ → ℚ → ℚ → ℚ) (fdata : List FRecord)
    (out : List Record × List Record × CleanStats)
    (h : clean_dataset sample raw = some out) :
    out.1.length ≤ raw.length ∧
    (engineer_features dist fdata).length = fdata.length :=
  ⟨clean_dataset_survivors_le sample raw out h, engineer_features_length dist fdata⟩

def exSampler : List ℚ → ℕ → List ℚ := fun l n => l.take n

def exRecord : Record :=
  { vendor_id := some "2", pickup_datetime := "2016-03-14 17:24:55",
    dropoff_datetime := "2016-03-14 17:32:30", passenger_count := some "1",
    pickup_longitude := some "-73.982", pickup_latitude := some "40.767",
    dropoff_longitude := some "-73.964", dropoff_latitude := some "40.765",
    store_and_fwd_flag := some "N", trip_duration := some "455" }

def exOut : List Record × List Record × CleanStats :=
  ([{ exRecord with calculated_duration := some "455", outlier_flag := some "NORMAL" }],
   [], ⟨0, 0, 0, 0, 0, 0⟩)

unseal Rat.mul Rat.add Rat.sub Rat.inv Rat.ofScientific in
/-- Witness for **C1** on a single valid record. -/
theorem c1_pipeline_lengths_witness :
    exOut.1.length ≤ ([exRecord] : List Record).length ∧
    (engineer_features (fun _ _ _ _ => 0) ([] : List FRecord)).length =
      ([] : List FRecord).length :=
  c1_pipeline_lengths exSampler [exRecord] (fun _ _ _ _ => 0) [] exOut (by decide)

lemma splitStage_removed (keep : Record → Option Record) (flag : Record → Record)
    (l : List Record) : ∀ r ∈ (splitStage keep flag l).2, ∃ r0 ∈ l, r = flag r0 := by
  induction l with
  | nil =>
    intro r hr
    simp [splitStage] at hr
  | cons a rs ih =>
    intro r hr
    rw [splitStage] at hr
    rcases hka : keep a with _ | r2 <;> rw [hka] at hr <;> dsimp only at hr
    · rcases List.mem_cons.mp hr with h | h
      · exact ⟨a, List.mem_cons_self a rs, h⟩
      · obtain ⟨r0, hr0, he⟩ := ih r h
        exact ⟨r0, List.mem_cons_of_mem a hr0, he⟩
    · obtain ⟨r0, hr0, he⟩ := ih r hr
      exact ⟨r0, List.mem_cons_of_mem a hr0, he⟩

lemma removeDuplicatesGo_removed_subset (seen : List String) (l : List Record) :
    ∀ r ∈ (removeDuplicatesGo seen l).2, r ∈ l := by
  induction l generalizing seen with
  | nil =>
    intro r hr
    simp [removeDuplicatesGo] at hr
  | cons a rs ih =>
    intro r hr
    rw [removeDuplicatesGo] at hr
    by_cases hd : dedupKey a ∈ seen
    · rw [if_pos hd] at hr
      dsimp only at hr
      rcases List.mem_cons.mp hr with h | h
      · exact h ▸ List.mem_cons_self a rs
      · exact List.mem_cons_of_mem a (ih seen r h)
    · rw [if_neg hd] at hr
      dsimp only at hr
      exact List.mem_cons_of_mem a (ih (dedupKey a :: seen) r hr)

lemma validate_coordinates_removed_flag (l : List Record) :
    ∀ r ∈ (_validate_coordinates l).2,
      r.validity_flag = some "INVALID_COORDINATES" := by
  intro r hr
  unfold _validate_coordinates at hr
  obtain ⟨r0, _, he⟩ := splitStage_removed _ _ l r hr
  rw [he]

lemma validate_datetime_removed_flag (l : List Record) :
    ∀ r ∈ (_validate_datetime l).2,
      r.validity_flag = some "INVALID_DATETIME" := by
  intro r hr
  unfold _validate_datetime at hr
  obtain ⟨r0, _, he⟩ := splitStage_removed _ _ l r hr
  rw [he]

lemma validate_trip_duration_removed_flag (l : List Record) :
    ∀ r ∈ (_validate_trip_duration l).2,
      r.validity_flag = some "INVALID_DURATION_OR_PASSENGERS" := by
  intro r hr
  unfold _validate_trip_duration at hr
  obtain ⟨r0, _, he⟩ := splitStage_removed _ _ l r hr
  rw [he]

def c7Rec : Record :=
  { vendor_id := some "2", pickup_datetime := "2016-03-14 17:24:55",
    dropoff_datetime := "2016-03-14 17:32:30", passenger_count := some "1",
    pickup_longitude := some "-73.982", pickup_latitude := some "40.767",
    dropoff_longitude := some "-73.964", dropoff_latitude := some "40.765",
    store_and_fwd_flag := some "N", trip_duration := some "455" }

unseal Rat.mul Rat.add Rat.sub Rat.inv Rat.ofScientific in
/-- Claim **C7, counterexample**: the claim asserts every removed record — exact
duplicates included — carries a recorded reason before removal, but running
the pipeline on two identical records removes the duplicate with its
`validity_flag` still unset (`none`): no reason is recorded for duplicates. -/
theorem c7_removal_flags_counterexample :
    (clean_dataset exSampler [c7Rec, c7Rec]).map
        (fun out => out.2.1.map Record.validity_flag) = some [none] ∧
    (clean_dataset exSampler [c7Rec, c7Rec]).map
        (fun out => out.2.1.length) = some 1 := by
  decide

lemma removeDuplicatesGo_removed_sublist (seen : List String) (l : List Record) :
    ((removeDuplicatesGo seen l).2).Sublist l := by
  induction l generalizing seen with
  | nil =>
    rw [removeDuplicatesGo]
  | cons a rs ih =>
    rw [removeDuplicatesGo]
    by_cases hd : dedupKey a ∈ seen
    · rw [if_pos hd]
      dsimp only
      exact List.Sublist.cons₂ a (ih seen)
    · rw [if_neg hd]
      dsimp only
      exact List.Sublist.cons a (ih (dedupKey a :: seen))

/-- Claim **C7, amended**: the removed-record list of the pipeline is exactly the
concatenation of the four stages' rejects, in order; each validation stage's
reject is an input record of that stage with *that stage's* reason written
into its validity flag before removal (`INVALID_COORDINATES` for the
coordinate stage, `INVALID_DATETIME` for the datetime stage,
`INVALID_DURATION_OR_PASSENGERS` for the duration/passenger stage); and the
duplicate stage's rejects are a sublist of the raw input — unchanged records,
with no reason recorded on them. -/
theorem c7_removal_flags_amended (sample : List ℚ → ℕ → List ℚ) (raw : List Record)
    (out : List Record × List Record × CleanStats)
    (h : clean_dataset sample raw = some out) :
    out.2.1 = (_remove_duplicates raw).2 ++
        (_validate_coordinates (_fix_missing_values (_remove_duplicates raw).1).1).2 ++
        (_validate_datetime (_validate_coordinates
          (_fix_missing_values (_remove_duplicates raw).1).1).1).2 ++
        (_validate_trip_duration (_validate_datetime (_validate_coordinates
          (_fix_missing_values (_remove_duplicates raw).1).1).1).1).2 ∧
    (∀ l : List Record, ∀ r ∈ (_validate_coordinates l).2, ∃ r0 ∈ l,
      r = { r0 with validity_flag := some "INVALID_COORDINATES" }) ∧
    (∀ l : List Record, ∀ r ∈ (_validate_datetime l).2, ∃ r0 ∈ l,
      r = { r0 with validity_flag := some "INVALID_DATETIME" }) ∧
    (∀ l : List Record, ∀ r ∈ (_validate_trip_duration l).2, ∃ r0 ∈ l,
      r = { r0 with validity_flag := some "INVALID_DURATION_OR_PASSENGERS" }) ∧
    ((_remove_duplicates raw).2).Sublist raw := by
  refine ⟨?_, ?_, ?_, ?_, ?_⟩
  · unfold clean_dataset at h
    dsimp only at h
    rcases hmo : _detect_outliers sample
        ((_validate_trip_duration (_validate_datetime (_validate_coordinates
          (_fix_missing_values (_remove_duplicates raw).1).1).1).1).1) with _ | d6
    · rw [hmo] at h
      exact absurd h (by simp)
    · rw [hmo] at h
      dsimp only at h
      injection h with h
      subst h
      rfl
  · intro l r hr
    unfold _validate_coordinates at hr
    exact splitStage_removed _ _ l r hr
  · intro l r hr
    unfold _validate_datetime at hr
    exact splitStage_removed _ _ l r hr
  · intro l r hr
    unfold _validate_trip_duration at hr
    exact splitStage_removed _ _ l r hr
  · unfold _remove_duplicates
    exact removeDuplicatesGo_removed_sublist [] raw

def c7BadRec : Record :=
  { vendor_id := some "2", pickup_datetime := "2016-03-14 17:24:55",
    dropoff_datetime := "2016-03-14 17:32:30", passenger_count := some "1",
    pickup_longitude := some "-73.982", pickup_latitude := some "10.0",
    dropoff_longitude := some "-73.964", dropoff_latitude := some "40.765",
    store_and_fwd_flag := some "N", trip_duration := some "455" }

def c7Out : List Record × List Record × CleanStats :=
  ([], [{ c7BadRec with validity_flag := some "INVALID_COORDINATES" }],
   ⟨0, 0, 1, 0, 0, 0⟩)

unseal Rat.mul Rat.add Rat.sub Rat.inv Rat.ofScientific in
/-- Witness for **C7 amended** on a record with out-of-range coordinates: the
removed-list decomposition, the coordinate stage's flagged reject, and the
duplicate-stage sublist at a concrete input. -/
theorem c7_removal_flags_amended_witness :
    c7Out.2.1 = (_remove_duplicates [c7BadRec]).2 ++
        (_validate_coordinates
          (_fix_missing_values (_remove_duplicates [c7BadRec]).1).1).2 ++
        (_validate_datetime (_validate_coordinates
          (_fix_missing_values (_remove_duplicates [c7BadRec]).1).1).1).2 ++
        (_validate_trip_duration (_validate_datetime (_validate_coordinates
          (_fix_missing_values (_remove_duplicates [c7BadRec]).1).1).1).1).2 ∧
    (∃ r0 ∈ [c7BadRec],
      { c7BadRec with validity_flag := some "INVALID_COORDINATES" } =
        { r0 with validity_flag := some "INVALID_COORDINATES" }) ∧
    ((_remove_duplicates [c7BadRec]).2).Sublist [c7BadRec] :=
  ⟨(c7_removal_flags_amended exSampler [c7BadRec] c7Out (by decide)).1,
   (c7_removal_flags_amended exSampler [c7BadRec] c7Out (by decide)).2.1 [c7BadRec]
     { c7BadRec with validity_flag := some "INVALID_COORDINATES" } (by decide),
   (c7_removal_flags_amended exSampler [c7BadRec] c7Out (by decide)).2.2.2.2⟩

def c8Rec : Record :=
  { pickup_datetime := "2016-03-14 17:24:55",
    dropoff_datetime := "2016-03-14 17:32:30",
    pickup_longitude := some "-73.982", pickup_latitude := some "40.767",
    dropoff_longitude := some "-73.964", dropoff_latitude := some "40.765",
    store_and_fwd_flag := some "N", trip_duration := some "455" }

/-- Claim **C8, counterexample**: the claim asserts the missing-value counter gains
one increment per substitution, so a record with two absent fields should
contribute two; on a record missing both its passenger count and its vendor id
the stage performs both substitutions yet the counter ends at `1`, because the
source increments once per record with `fixed = True`. -/
theorem c8_counter_counterexample :
    c8Rec.passenger_count = none ∧
    c8Rec.vendor_id = none ∧
    (_fix_missing_values [c8Rec]).1.map Record.passenger_count = [some "1"] ∧
    (_fix_missing_values [c8Rec]).1.map Record.vendor_id = [some "1"] ∧
    (_fix_missing_values [c8Rec]).2 = 1 := by
  decide

/-- Claim **C8, amended**: the missing-value stage removes no records and replaces,
per record, an absent or empty passenger count with `"1"`, an absent or empty
store-and-forward flag with `"N"`, and an absent or empty vendor id with
`"1"`; its counter equals the number of *records* that received at least one
substitution (a record with several absent fields contributes exactly one). -/
theorem c8_fix_missing_amended (data : List Record) :
    (_fix_missing_values data).1 = data.map (fun r =>
      { r with
        passenger_count := if r.passenger_count = none ∨ r.passenger_count = some ""
          then some "1" else r.passenger_count,
        store_and_fwd_flag :=
          if r.store_and_fwd_flag = none ∨ r.store_and_fwd_flag = some ""
          then some "N" else r.store_and_fwd_flag,
        vendor_id := if r.vendor_id = none ∨ r.vendor_id = some ""
          then some "1" else r.vendor_id }) ∧
    (_fix_missing_values data).1.length = data.length ∧
    (_fix_missing_values data).2 = (data.filter (fun r =>
      decide (r.passenger_count = none ∨ r.passenger_count = some "") ||
      decide (r.store_and_fwd_flag = none ∨ r.store_and_fwd_flag = some "") ||
      decide (r.vendor_id = none ∨ r.vendor_id = some ""))).length := by
  refine ⟨rfl, fix_missing_length data, ?_⟩
  unfold _fix_missing_values
  dsimp only
  rw [List.countP_eq_length_filter]
  congr 1

/-- Claim **C10**: in the efficiency-metrics step (a per-record map of `effRecord`),
a record with parsable duration and strictly positive derived speed gets
estimated idle time `max 0 (duration - (distance/speed)*3600)`, while a record
whose derived speed is not positive (zero distance or an unusable speed field)
gets the *entire trip duration* as its estimated idle time instead of that
formula. -/
theorem c10_idle_time (data : List FRecord) (r : FRecord) (dur : ℚ)
    (hd : fDur r = some dur) :
    _calculate_efficiency_metrics data = data.map effRecord ∧
    (0 < r.trip_speed_kmh.getD 0 →
      (effRecord r).estimated_idle_time =
        some (max 0 (dur - (r.trip_distance_km.getD 0) /
          (r.trip_speed_kmh.getD 0) * 3600))) ∧
    (r.trip_speed_kmh.getD 0 ≤ 0 →
      (effRecord r).estimated_idle_time = some dur) := by
  refine ⟨rfl, ?_, ?_⟩
  · intro hs
    unfold effRecord
    rw [hd]
    dsimp only
    rw [if_pos hs]
  · intro hs
    unfold effRecord
    rw [hd]
    dsimp only
    rw [if_neg (not_lt.mpr hs)]

def c10Rec : FRecord :=
  { trip_duration := some "120", trip_distance_km := some 2,
    trip_speed_kmh := some 60 }

def c10RecZero : FRecord :=
  { trip_duration := some "300" }

unseal Rat.mul Rat.add Rat.sub Rat.inv Rat.ofScientific in
/-- Witness for **C10**: one record with positive speed, one with no usable
speed. -/
theorem c10_idle_time_witness :
    (effRecord c10Rec).estimated_idle_time =
      some (max 0 (120 - (c10Rec.trip_distance_km.getD 0) /
        (c10Rec.trip_speed_kmh.getD 0) * 3600)) ∧
    (effRecord c10RecZero).estimated_idle_time = some 300 :=
  ⟨(c10_idle_time [] c10Rec 120 (by decide)).2.1 (by decide),
   (c10_idle_time [] c10RecZero 300 (by decide)).2.2 (by decide)⟩

def sampleHead : List ℚ → ℕ → List ℚ := fun l n => l.take n

def sampleTail : List ℚ → ℕ → List ℚ := fun l n => l.reverse.take n

def c9Rec (d : String) : Record := { trip_duration := some d }

def c9Data : List Record :=
  List.replicate 50000 (c9Rec "60") ++ List.replicate 50001 (c9Rec "3600")

lemma sortedValuesOf_replicate (n : ℕ) (c : ℚ) :
    sortedValuesOf (List.replicate n c) = List.replicate n c := by
  rw [sortedValuesOf_eq]
  exact List.Sorted.insertionSort_eq (List.pairwise_replicate.mpr (Or.inr le_rfl))

lemma percEntry_replicate (n : ℕ) (c : ℚ) (p : ℤ) (hn : 1 ≤ n)
    (_h0 : 0 ≤ p) (h1 : p ≤ 100) :
    percEntry (List.replicate n c) p = c := by
  unfold percEntry
  by_cases hp0 : p = 0
  · rw [if_pos hp0, List.getD_eq_getElem?_getD, List.getElem?_replicate,
      if_pos (by omega), Option.getD_some]
  · rw [if_neg hp0]
    by_cases hp100 : p = 100
    · rw [if_pos hp100, List.length_replicate, List.getD_eq_getElem?_getD,
        List.getElem?_replicate, if_pos (by omega), Option.getD_some]
    · rw [if_neg hp100]
      dsimp only
      rw [List.length_replicate]
      have hposle : (p : ℚ) / 100 * ((n : ℚ) - 1) ≤ (n : ℚ) - 1 := by
        have h1n : (0 : ℚ) ≤ (n : ℚ) - 1 := by
          have : (1 : ℚ) ≤ (n : ℚ) := by exact_mod_cast hn
          linarith
        have hple : (p : ℚ) / 100 ≤ 1 := by
          rw [div_le_one (by norm_num)]
          exact_mod_cast h1
        nlinarith
      have hfl : ⌊(p : ℚ) / 100 * ((n : ℚ) - 1)⌋ ≤ (n : ℤ) - 1 := by
        rw [Int.floor_le_iff]
        push_cast
        linarith
      have hlow : (⌊(p : ℚ) / 100 * ((n : ℚ) - 1)⌋).toNat < n := by omega
      have hup : min ((⌊(p : ℚ) / 100 * ((n : ℚ) - 1)⌋).toNat + 1) (n - 1) < n := by
        omega
      rw [List.getD_eq_getElem?_getD, List.getElem?_replicate, if_pos hlow,
        Option.getD_some, List.getD_eq_getElem?_getD, List.getElem?_replicate,
        if_pos hup, Option.getD_some]
      ring

lemma mem_replicate_enum_snd {n : ℕ} {c : ℚ} {iv : ℕ × ℚ}
    (h : iv ∈ (List.replicate n c).enum) : iv.2 = c := by
  rcases iv with ⟨i, a⟩
  have hg := List.mk_mem_enum_iff_getElem?.mp h
  rw [List.getElem?_replicate] at hg
  by_cases hi : i < n
  · rw [if_pos hi] at hg
    exact (Option.some_inj.mp hg).symm
  · rw [if_neg hi] at hg
    cases hg

lemma detect_outliers_iqr_replicate (n : ℕ) (c : ℚ) (hn : 4 ≤ n) :
    detect_outliers_iqr (List.replicate n c) 2 = ([], some ⟨c, c, 0, c, c, 0⟩) := by
  unfold detect_outliers_iqr
  rw [if_neg (by rw [List.length_replicate]; omega)]
  have hne : List.replicate n c ≠ [] := by
    apply List.ne_nil_of_length_pos
    rw [List.length_replicate]
    omega
  obtain ⟨h25, h75⟩ := percLookup_pair (List.replicate n c) hne
  rw [sortedValuesOf_replicate] at h25 h75
  rw [percEntry_replicate n c 25 (by omega) (by norm_num) (by norm_num)] at h25
  rw [percEntry_replicate n c 75 (by omega) (by norm_num) (by norm_num)] at h75
  dsimp only
  rw [h25, h75]
  have hfilter : (List.replicate n c).enum.filter
      (fun iv => decide (iv.2 < c - 2 * (c - c)) ||
        decide (c + 2 * (c - c) < iv.2)) = [] := by
    rw [List.filter_eq_nil_iff]
    intro iv hiv
    rw [mem_replicate_enum_snd hiv]
    simp only [Bool.or_eq_true, decide_eq_true_eq, not_or, not_lt]
    constructor <;> nlinarith
  rw [hfilter]
  have hlb : c - 2 * (c - c) = c := by ring
  have hub : c + 2 * (c - c) = c := by ring
  have hiq : c - c = 0 := by ring
  rw [hlb, hub, hiq]
  rfl

unseal Rat.mul Rat.add Rat.sub Rat.inv Rat.ofScientific in
lemma c9_dur60 : durOf (c9Rec "60") = 60 := by decide

unseal Rat.mul Rat.add Rat.sub Rat.inv Rat.ofScientific in
lemma c9_dur3600 : durOf (c9Rec "3600") = 3600 := by decide

lemma detect_outliers_big (sample : List ℚ → ℕ → List ℚ) (data : List Record)
    (st : IqrStats)
    (hgt : 100000 < (data.map durOf).length)
    (hst : (detect_outliers_iqr
      (sample (data.map durOf) (min 50000 (data.map durOf).length)) 2).2 = some st) :
    _detect_outliers sample data = some ((data.zip (data.map durOf)).map (fun rd =>
      { rd.1 with outlier_flag := some (if rd.2 < st.q1 - 2 * (st.q3 - st.q1) ∨
          rd.2 > st.q3 + 2 * (st.q3 - st.q1) then "DURATION_OUTLIER"
          else "NORMAL") })) := by
  unfold _detect_outliers
  dsimp only
  rw [if_pos hgt, hst]

/-- Claim **C9**: the outlier stage's behaviour on identical input depends on which
subset the (unseeded) `random.sample` call returns once the 100000-record
threshold is crossed: two legitimate draws of the sampling source
(`sampleHead`, `sampleTail`) over the very same record list yield *different*
outlier flags, so the stage is not a function of its input alone — no seed
parameter is threaded through the sampling call, contrary to the claim. -/
theorem c9_unseeded_sampling_nondeterministic :
    100000 < c9Data.length ∧
    _detect_outliers sampleHead c9Data ≠ _detect_outliers sampleTail c9Data := by
  have hdur : c9Data.map durOf =
      List.replicate 50000 (60 : ℚ) ++ List.replicate 50001 3600 := by
    unfold c9Data
    rw [List.map_append, List.map_replicate, List.map_replicate, c9_dur60, c9_dur3600]
  have hlen : c9Data.length = 100001 := by
    unfold c9Data
    rw [List.length_append, List.length_replicate, List.length_replicate]
  refine ⟨by omega, ?_⟩
  have hgt : 100000 < (c9Data.map durOf).length := by
    rw [List.length_map]
    omega
  have hmin : min 50000 (c9Data.map durOf).length = 50000 := by
    rw [List.length_map, hlen]
    omega
  have hs1 : sampleHead (c9Data.map durOf) 50000 = List.replicate 50000 (60 : ℚ) := by
    unfold sampleHead
    rw [hdur]
    exact List.take_left' (List.length_replicate _ _)
  have hs2 : sampleTail (c9Data.map durOf) 50000 =
      List.replicate 50000 (3600 : ℚ) := by
    unfold sampleTail
    rw [hdur, List.reverse_append, List.reverse_replicate, List.reverse_replicate,
      List.take_append_of_le_length (by rw [List.length_replicate]; omega),
      List.take_replicate]
    congr 1
  have hst1 : (detect_outliers_iqr (sampleHead (c9Data.map durOf)
      (min 50000 (c9Data.map durOf).length)) 2).2 =
      some ⟨60, 60, 0, 60, 60, 0⟩ := by
    rw [hmin, hs1, detect_outliers_iqr_replicate 50000 60 (by norm_num)]
  have hst2 : (detect_outliers_iqr (sampleTail (c9Data.map durOf)
      (min 50000 (c9Data.map durOf).length)) 2).2 =
      some ⟨3600, 3600, 0, 3600, 3600, 0⟩ := by
    rw [hmin, hs2, detect_outliers_iqr_replicate 50000 3600 (by norm_num)]
  have hd1 := detect_outliers_big sampleHead c9Data ⟨60, 60, 0, 60, 60, 0⟩ hgt hst1
  have hd2 := detect_outliers_big sampleTail c9Data ⟨3600, 3600, 0, 3600, 3600, 0⟩ hgt hst2
  intro hc
  rw [hd1, hd2, hdur] at hc
  rw [show ((⟨60, 60, 0, 60, 60, 0⟩ : IqrStats).q1) = 60 from rfl,
    show ((⟨60, 60, 0, 60, 60, 0⟩ : IqrStats).q3) = 60 from rfl,
    show ((⟨3600, 3600, 0, 3600, 3600, 0⟩ : IqrStats).q1) = 3600 from rfl,
    show ((⟨3600, 3600, 0, 3600, 3600, 0⟩ : IqrStats).q3) = 3600 from rfl] at hc
  have hconsD : c9Data = c9Rec "60" ::
      (List.replicate 49999 (c9Rec "60") ++ List.replicate 50001 (c9Rec "3600")) := by
    unfold c9Data
    rw [show (50000 : ℕ) = 49999 + 1 by norm_num, List.replicate_succ, List.cons_append]
  have hconsQ : List.replicate 50000 (60 : ℚ) ++ List.replicate 50001 3600 =
      (60 : ℚ) :: (List.replicate 49999 (60 : ℚ) ++ List.replicate 50001 3600) := by
    rw [show (50000 : ℕ) = 49999 + 1 by norm_num, List.replicate_succ, List.cons_append]
  rw [hconsD, hconsQ, List.zip_cons_cons, List.map_cons, List.map_cons] at hc
  simp only [Option.some.injEq, List.cons.injEq] at hc
  have hflag := congrArg Record.outlier_flag hc.1
  dsimp only at hflag
  rw [if_neg (by norm_num), if_pos (by norm_num)] at hflag
  exact absurd hflag (by simp)

end NycTaxi
